import Mathlib

/-!
Verification of the autosave/reconciliation core of the Atlas mobile client.

The development shallowly embeds the JavaScript/TypeScript source:

* `mobile/Home.js` — card-list state, fact-slot normalization, the debounced
  persistence scheduler (`queueSave` / `persistCard`);
* `mobile/utils/personHandlers.js` — the legacy composite-identifier scheme
  (`buildIdentifier`, `saveEntry`, `writeEntryForDate`, ...);
* the person/encounter helpers (`firestorePeople`) — normalized-name upsert;
* `mobile/services/firebaseService.js` — document-store primitives
  (`setDoc` with merge, `addDoc`, field-equality queries).

Modelling conventions: JS strings are Lean `String`; JS arrays are `List`;
JS objects are association lists keyed by `String`; the remote document store
is an in-memory list of documents; the JS `Map` of pending timers is an
association list with a fresh-id counter, where a timer removed from the
registry has been cancelled by `clearTimeout` and never fires.  Fresh
client-side ids (`generateClientId`) are supplied by an explicit generator
argument.  Unicode library behaviour (`toLowerCase`, NFD decomposition) is
embedded through explicit character tables that cover the ASCII and Latin-1
ranges and are the identity elsewhere.
-/

namespace Atlas

/-- Whitespace test modelling the characters that JS `trim` and `\s` match in
the ASCII range. -/
def isWsChar (c : Char) : Bool :=
  c == ' ' || c == '\t' || c == '\n' || c == '\r' || c.toNat == 11 || c.toNat == 12

/-- Drop leading whitespace of a character list. -/
def trimLeftChars (l : List Char) : List Char := l.dropWhile isWsChar

/-- Drop leading and trailing whitespace, modelling `String.prototype.trim`. -/
def trimChars (l : List Char) : List Char :=
  ((trimLeftChars l).reverse.dropWhile isWsChar).reverse

/-- The JS `s.trim()` operation on strings. -/
def jsTrim (s : String) : String := ⟨trimChars s.data⟩

theorem dropWhile_dropWhile {α : Type} (p : α → Bool) :
    ∀ l : List α, (l.dropWhile p).dropWhile p = l.dropWhile p
  | [] => rfl
  | a :: l => by
    by_cases h : p a = true
    · simp [List.dropWhile_cons, h, dropWhile_dropWhile p l]
    · simp [List.dropWhile_cons, h]

theorem head?_dropWhile_not {α : Type} (p : α → Bool) :
    ∀ l : List α, ∀ a, (l.dropWhile p).head? = some a → p a = false
  | [], _, h => by simp [List.dropWhile] at h
  | x :: l, a, h => by
    by_cases hx : p x = true
    · exact head?_dropWhile_not p l a (by simpa [List.dropWhile_cons, hx] using h)
    · have hxa : x = a := by simpa [List.dropWhile_cons, hx] using h
      subst hxa
      simpa using hx

theorem dropWhile_of_head?_not {α : Type} (p : α → Bool) (l : List α)
    (h : ∀ a, l.head? = some a → p a = false) : l.dropWhile p = l := by
  cases l with
  | nil => rfl
  | cons a t => simp [List.dropWhile_cons, h a rfl]

theorem getLast?_dropWhile {α : Type} (p : α → Bool) (l : List α) (a : α)
    (h : (l.dropWhile p).getLast? = some a) : l.getLast? = some a := by
  have hsplit := List.takeWhile_append_dropWhile p l
  have : l.getLast? = ((l.takeWhile p) ++ (l.dropWhile p)).getLast? := by rw [hsplit]
  rw [this, List.getLast?_append, h]
  rfl

theorem trimChars_idem (l : List Char) : trimChars (trimChars l) = trimChars l := by
  unfold trimChars trimLeftChars
  generalize hA : List.dropWhile isWsChar l = A
  have hAhead : ∀ a, A.head? = some a → isWsChar a = false := by
    intro a ha
    exact head?_dropWhile_not isWsChar l a (by rw [hA]; exact ha)
  have hstep1 :
      List.dropWhile isWsChar (List.dropWhile isWsChar A.reverse).reverse
        = (List.dropWhile isWsChar A.reverse).reverse := by
    apply dropWhile_of_head?_not
    intro a ha
    rw [List.head?_reverse] at ha
    have h2 : A.reverse.getLast? = some a := getLast?_dropWhile _ _ _ ha
    rw [List.getLast?_eq_head?_reverse, List.reverse_reverse] at h2
    exact hAhead a h2
  rw [hstep1, List.reverse_reverse, dropWhile_dropWhile]

theorem jsTrim_idem (s : String) : jsTrim (jsTrim s) = jsTrim s := by
  unfold jsTrim
  exact congrArg String.mk (trimChars_idem s.data)

/-- Split a character list into its maximal non-whitespace runs.  Models the
JS pipeline `str.split(/\s+/).filter(Boolean)`, whose result is exactly the
list of whitespace-separated tokens. -/
def wordsAux : List Char → List Char → List (List Char)
  | [], acc => if acc.isEmpty then [] else [acc.reverse]
  | c :: rest, acc =>
    if isWsChar c then
      if acc.isEmpty then wordsAux rest [] else acc.reverse :: wordsAux rest []
    else wordsAux rest (c :: acc)

/-- The whitespace-separated tokens of the trimmed input, as in
`fullName.trim().split(/\s+/).filter(Boolean)` (from `hasLastName`). -/
def splitTokens (s : String) : List String :=
  (wordsAux (trimChars s.data) []).map (fun w => ⟨w⟩)

/-- Source `hasLastName` (Home.js / personHandlers.js): the trimmed name has
at least two whitespace-separated parts. -/
def hasLastName (fullName : String) : Bool :=
  2 ≤ (splitTokens fullName).length

/-- JS `toLowerCase` restricted to the ASCII and Latin-1 ranges (identity on
all other characters; the repository only exercises Latin-script names). -/
def jsToLowerChar (c : Char) : Char :=
  let n := c.toNat
  if 65 ≤ n ∧ n ≤ 90 then Char.ofNat (n + 32)
  else if 192 ≤ n ∧ n ≤ 222 ∧ n ≠ 215 then Char.ofNat (n + 32)
  else c

/-- Unicode NFD decomposition restricted to the precomposed Latin-1 lowercase
letters (identity elsewhere); ASCII characters are NFD-invariant, so this is
faithful on the Latin-script inputs the app handles. -/
def nfdChar (c : Char) : List Char :=
  match c.toNat with
  | 0xE0 => ['a', Char.ofNat 0x300]
  | 0xE1 => ['a', Char.ofNat 0x301]
  | 0xE2 => ['a', Char.ofNat 0x302]
  | 0xE3 => ['a', Char.ofNat 0x303]
  | 0xE4 => ['a', Char.ofNat 0x308]
  | 0xE5 => ['a', Char.ofNat 0x30A]
  | 0xE7 => ['c', Char.ofNat 0x327]
  | 0xE8 => ['e', Char.ofNat 0x300]
  | 0xE9 => ['e', Char.ofNat 0x301]
  | 0xEA => ['e', Char.ofNat 0x302]
  | 0xEB => ['e', Char.ofNat 0x308]
  | 0xEC => ['i', Char.ofNat 0x300]
  | 0xED => ['i', Char.ofNat 0x301]
  | 0xEE => ['i', Char.ofNat 0x302]
  | 0xEF => ['i', Char.ofNat 0x308]
  | 0xF1 => ['n', Char.ofNat 0x303]
  | 0xF2 => ['o', Char.ofNat 0x300]
  | 0xF3 => ['o', Char.ofNat 0x301]
  | 0xF4 => ['o', Char.ofNat 0x302]
  | 0xF5 => ['o', Char.ofNat 0x303]
  | 0xF6 => ['o', Char.ofNat 0x308]
  | 0xF9 => ['u', Char.ofNat 0x300]
  | 0xFA => ['u', Char.ofNat 0x301]
  | 0xFB => ['u', Char.ofNat 0x302]
  | 0xFC => ['u', Char.ofNat 0x308]
  | 0xFD => ['y', Char.ofNat 0x301]
  | 0xFF => ['y', Char.ofNat 0x308]
  | _ => [c]

/-- Combining diacritical marks, the range stripped by `/[̀-ͯ]/g`. -/
def isCombiningMark (c : Char) : Bool :=
  768 ≤ c.toNat && c.toNat ≤ 879

/-- Collapse every maximal whitespace run to a single space, modelling
`replace(/\s+/g, ' ')`.  The flag records whether the previous character was
part of a whitespace run. -/
def collapseWsAux : Bool → List Char → List Char
  | _, [] => []
  | prevWs, c :: rest =>
    if isWsChar c then
      if prevWs then collapseWsAux true rest else ' ' :: collapseWsAux true rest
    else c :: collapseWsAux false rest

/-- Replace each whitespace run by one space (`replace(/\s+/g, ' ')`). -/
def collapseWs (l : List Char) : List Char := collapseWsAux false l

/-- Source `normalizePersonName` (firestorePeople): trim, lower-case,
NFD-decompose, strip combining marks, collapse whitespace. -/
def normalizePersonName (rawName : String) : String :=
  ⟨collapseWs ((((trimChars rawName.data).map jsToLowerChar).flatMap nfdChar).filter
      (fun c => !isCombiningMark c))⟩

theorem normalizePersonName_jsTrim (s : String) :
    normalizePersonName (jsTrim s) = normalizePersonName s := by
  unfold normalizePersonName jsTrim
  rw [show (String.mk (trimChars s.data)).data = trimChars s.data from rfl,
    trimChars_idem]

/-- Generic form of the JS pattern
`arr.filter((x, index) => keep(x) || index === arr.length - 1)`:
keep an element when `keep` holds or the element is at position `lastIdx`. -/
def keepOrLast {α : Type} (keep : α → Bool) (lastIdx : Nat) : Nat → List α → List α
  | _, [] => []
  | i, a :: rest =>
    if keep a || i == lastIdx then a :: keepOrLast keep lastIdx (i + 1) rest
    else keepOrLast keep lastIdx (i + 1) rest

theorem keepOrLast_filter_keep {α : Type} (keep : α → Bool) (L : Nat) :
    ∀ (i : Nat) (l : List α), (keepOrLast keep L i l).filter keep = l.filter keep
  | _, [] => rfl
  | i, a :: rest => by
    by_cases hk : keep a = true
    · simp [keepOrLast, hk, List.filter_cons, keepOrLast_filter_keep keep L (i + 1) rest]
    · by_cases hi : (i == L) = true
      · simp [keepOrLast, hk, hi, List.filter_cons,
          keepOrLast_filter_keep keep L (i + 1) rest]
      · simp [keepOrLast, hk, hi, List.filter_cons,
          keepOrLast_filter_keep keep L (i + 1) rest]

theorem keepOrLast_ne_nil {α : Type} (keep : α → Bool) (L : Nat) :
    ∀ (i : Nat) (l : List α), l ≠ [] → i + l.length = L + 1 →
      keepOrLast keep L i l ≠ []
  | i, [], h, _ => absurd rfl h
  | i, a :: rest, _, hlen => by
    cases rest with
    | nil =>
      have : i = L := by simpa using hlen
      simp [keepOrLast, this]
    | cons b t =>
      by_cases hcond : (keep a || i == L) = true
      · rw [show keepOrLast keep L i (a :: b :: t)
            = a :: keepOrLast keep L (i + 1) (b :: t) by simp [keepOrLast, hcond]]
        simp
      · rw [show keepOrLast keep L i (a :: b :: t)
            = keepOrLast keep L (i + 1) (b :: t) by simp [keepOrLast, hcond]]
        refine keepOrLast_ne_nil keep L (i + 1) (b :: t) (by simp) ?_
        simp at hlen ⊢
        omega

theorem keepOrLast_dropLast_all {α : Type} (keep : α → Bool) (L : Nat) :
    ∀ (i : Nat) (l : List α), i + l.length = L + 1 →
      ((keepOrLast keep L i l).dropLast).all keep = true
  | i, [], _ => rfl
  | i, a :: rest, hlen => by
    cases rest with
    | nil =>
      have : i = L := by simpa using hlen
      simp [keepOrLast, this]
    | cons b t =>
      have hiL : (i == L) = false := by
        simp at hlen ⊢
        omega
      have hlen' : (i + 1) + (b :: t).length = L + 1 := by
        simp at hlen ⊢
        omega
      by_cases hk : keep a = true
      · have hne : keepOrLast keep L (i + 1) (b :: t) ≠ [] :=
          keepOrLast_ne_nil keep L (i + 1) (b :: t) (by simp) hlen'
        rw [show keepOrLast keep L i (a :: b :: t)
            = a :: keepOrLast keep L (i + 1) (b :: t) by simp [keepOrLast, hk]]
        rw [List.dropLast_cons_of_ne_nil hne]
        simp only [List.all_cons, Bool.and_eq_true]
        exact And.intro hk (keepOrLast_dropLast_all keep L (i + 1) (b :: t) hlen')
      · rw [show keepOrLast keep L i (a :: b :: t)
            = keepOrLast keep L (i + 1) (b :: t) by simp [keepOrLast, hk, hiL]]
        exact keepOrLast_dropLast_all keep L (i + 1) (b :: t) hlen'

theorem getLast?_cons_of_ne_nil {α : Type} (a : α) (l : List α) (h : l ≠ []) :
    (a :: l).getLast? = l.getLast? := by
  cases l with
  | nil => exact absurd rfl h
  | cons b t => exact List.getLast?_cons_cons

theorem keepOrLast_getLast? {α : Type} (keep : α → Bool) (L : Nat) :
    ∀ (i : Nat) (l : List α), i + l.length = L + 1 →
      (keepOrLast keep L i l).getLast? = l.getLast?
  | i, [], _ => rfl
  | i, a :: rest, hlen => by
    cases rest with
    | nil =>
      have : i = L := by simpa using hlen
      simp [keepOrLast, this]
    | cons b t =>
      have hiL : (i == L) = false := by
        simp at hlen ⊢
        omega
      have hlen' : (i + 1) + (b :: t).length = L + 1 := by
        simp at hlen ⊢
        omega
      have hne : keepOrLast keep L (i + 1) (b :: t) ≠ [] :=
        keepOrLast_ne_nil keep L (i + 1) (b :: t) (by simp) hlen'
      by_cases hk : keep a = true
      · rw [show keepOrLast keep L i (a :: b :: t)
            = a :: keepOrLast keep L (i + 1) (b :: t) by simp [keepOrLast, hk]]
        rw [getLast?_cons_of_ne_nil a _ hne,
          keepOrLast_getLast? keep L (i + 1) (b :: t) hlen',
          getLast?_cons_of_ne_nil a (b :: t) (by simp)]
      · rw [show keepOrLast keep L i (a :: b :: t)
            = keepOrLast keep L (i + 1) (b :: t) by simp [keepOrLast, hk, hiL]]
        rw [keepOrLast_getLast? keep L (i + 1) (b :: t) hlen',
          getLast?_cons_of_ne_nil a (b :: t) (by simp)]

/-- Draft card state from Home.js.  A fact is represented by its text; the
`date` field is the card's (opaque) timestamp. -/
structure Card where
  clientId : String
  encounterId : Option String
  personId : Option String
  personName : String
  memo : String
  placeLabel : String
  facts : List String
  isNew : Bool
  needsSave : Bool
  date : String
deriving DecidableEq, Repr

/-- Non-blank test on a fact text: `fact.text.trim().length > 0`. -/
def factNonblank (t : String) : Bool := jsTrim t != ""

/-- Source `normalizeFactsForState` (Home.js): keep facts that are non-blank
or in last position, replace an empty result by one blank slot, and append a
blank slot when the final fact is non-blank. -/
def normalizeFactsForState (facts : List String) : List String :=
  let prepared := facts
  let compacted := keepOrLast factNonblank (prepared.length - 1) 0 prepared
  let ensured := if 0 < compacted.length then compacted else [""]
  if factNonblank (ensured.getLastD "") then ensured ++ [""] else ensured

/-- Source `buildFactsPayload` (Home.js): stamp each fact with its index in
the input sequence and the trimmed text, then drop the facts whose trimmed
text is empty.  (The JS map-then-filter is fused into one recursion.) -/
def buildFactsPayloadAux : Nat → List String → List (Nat × String)
  | _, [] => []
  | i, t :: rest =>
    if jsTrim t != "" then (i, jsTrim t) :: buildFactsPayloadAux (i + 1) rest
    else buildFactsPayloadAux (i + 1) rest

/-- The persisted facts payload of a card's fact list. -/
def buildFactsPayload (facts : List String) : List (Nat × String) :=
  buildFactsPayloadAux 0 facts

/-- Source `buildDisplayName` (Home.js): resolvable display identity of a
card built from name and memo. -/
def buildDisplayName (name memo : String) : String :=
  if jsTrim memo != "" && (jsTrim name == "" || !hasLastName (jsTrim name)) then
    (if jsTrim name != "" then jsTrim name ++ " - " ++ jsTrim memo else jsTrim memo)
  else jsTrim name

/-- Source `hasMeaningfulContent` (Home.js). -/
def hasMeaningfulContent (card : Card) : Bool :=
  jsTrim card.personName != "" || jsTrim card.memo != "" ||
    jsTrim card.placeLabel != "" || decide (0 < (buildFactsPayload card.facts).length)

/-- Source `shouldPersistCard` (Home.js): the persist-worthy predicate. -/
def shouldPersistCard (card : Card) : Bool :=
  buildDisplayName card.personName card.memo != "" &&
    (decide (0 < (buildFactsPayload card.facts).length) || jsTrim card.placeLabel != "")

/-- Blankness test used by `ensureTrailingBlankCard`:
`!hasMeaningfulContent(card) && !card.encounterId && !card.personId`. -/
def isBlankCard (card : Card) : Bool :=
  !hasMeaningfulContent card && card.encounterId.isNone && card.personId.isNone

/-- Source `createBlankCard` (Home.js); the generated client id and the
current time are supplied by the caller. -/
def createBlankCard (fresh : String) (nowStr : String) : Card :=
  { clientId := fresh, encounterId := none, personId := none, personName := "",
    memo := "", placeLabel := "", facts := normalizeFactsForState [],
    isNew := true, needsSave := false, date := nowStr }

/-- Final per-card pass of `ensureTrailingBlankCard`: backfill a missing
client id (`card.clientId || generateClientId('card')`) and re-normalize the
fact slots. -/
def restoreCardId (fresh : String) (card : Card) : Card :=
  { card with
    clientId := if card.clientId == "" then fresh else card.clientId,
    facts := normalizeFactsForState card.facts }

/-- Apply `restoreCardId` to every card, drawing fresh ids from `gen`. -/
def finalizeCards (gen : Nat → String) : Nat → List Card → List Card
  | _, [] => []
  | i, c :: rest => restoreCardId (gen (i + 1)) c :: finalizeCards gen (i + 1) rest

/-- First stage of `ensureTrailingBlankCard`: drop every blank card except
when it sits in the last position of the input list. -/
def trimBlankCards (cards : List Card) : List Card :=
  keepOrLast (fun c => !isBlankCard c) (cards.length - 1) 0 cards

/-- Second stage of `ensureTrailingBlankCard`: append the freshly created
blank card when the list is empty or its last card has meaningful content or
a persisted encounter id (`!last || hasMeaningfulContent(last) ||
last.encounterId`). -/
def withTrailingBlank (blank : Card) (trimmed : List Card) : List Card :=
  match trimmed.getLast? with
  | none => trimmed ++ [blank]
  | some lastCard =>
    if hasMeaningfulContent lastCard || lastCard.encounterId.isSome then
      trimmed ++ [blank]
    else trimmed

/-- Source `ensureTrailingBlankCard` (Home.js): drop blank cards except in
last position, append a blank card when the last card has meaningful content
or a persisted encounter id, then backfill ids and re-normalize facts. -/
def ensureTrailingBlankCard (gen : Nat → String) (nowStr : String)
    (cards : List Card) : List Card :=
  finalizeCards gen 0
    (withTrailingBlank (createBlankCard (gen 0) nowStr) (trimBlankCards cards))

/-- The filter `facts.filter((_, index) => index !== factIndex)` used by
`handleRemoveFact`. -/
def filterOutIndex (factIndex : Nat) : Nat → List String → List String
  | _, [] => []
  | i, t :: rest =>
    if i == factIndex then filterOutIndex factIndex (i + 1) rest
    else t :: filterOutIndex factIndex (i + 1) rest

/-- Source `handleRemoveFact` updater (Home.js): with at most one fact,
replace the content by a single blank slot; otherwise drop the fact at the
given index. -/
def removeFactUpdate (facts : List String) (factIndex : Nat) : List String :=
  if facts.length ≤ 1 then [""] else filterOutIndex factIndex 0 facts

theorem factNonblank_empty : factNonblank "" = false := rfl

theorem buildFactsPayloadAux_length :
    ∀ (i : Nat) (l : List String),
      (buildFactsPayloadAux i l).length = (l.filter factNonblank).length
  | _, [] => rfl
  | i, t :: rest => by
    by_cases h : (jsTrim t != "") = true
    · simp [buildFactsPayloadAux, factNonblank, h, List.filter_cons,
        buildFactsPayloadAux_length (i + 1) rest]
    · simp [buildFactsPayloadAux, factNonblank, h, List.filter_cons,
        buildFactsPayloadAux_length (i + 1) rest]

theorem filter_normalizeFactsForState (f : List String) :
    (normalizeFactsForState f).filter factNonblank = f.filter factNonblank := by
  unfold normalizeFactsForState
  have hc := keepOrLast_filter_keep factNonblank (f.length - 1) 0 f
  by_cases h0 : 0 < (keepOrLast factNonblank (f.length - 1) 0 f).length
  · simp only [if_pos h0]
    by_cases hb :
        factNonblank ((keepOrLast factNonblank (f.length - 1) 0 f).getLastD "") = true
    · rw [if_pos hb, List.filter_append, hc]
      simp [factNonblank_empty]
    · rw [if_neg hb, hc]
  · simp only [if_neg h0]
    have hnil : keepOrLast factNonblank (f.length - 1) 0 f = [] := by
      cases hk : keepOrLast factNonblank (f.length - 1) 0 f with
      | nil => rfl
      | cons a t => rw [hk] at h0; simp at h0
    rw [hnil] at hc
    rw [← hc]
    rfl

theorem buildFactsPayload_length_normalize (f : List String) :
    (buildFactsPayload (normalizeFactsForState f)).length
      = (buildFactsPayload f).length := by
  unfold buildFactsPayload
  rw [buildFactsPayloadAux_length, buildFactsPayloadAux_length,
    filter_normalizeFactsForState]

theorem hasMeaningfulContent_restoreCardId (fresh : String) (c : Card) :
    hasMeaningfulContent (restoreCardId fresh c) = hasMeaningfulContent c := by
  unfold hasMeaningfulContent restoreCardId
  simp only []
  rw [buildFactsPayload_length_normalize]

theorem isBlankCard_restoreCardId (fresh : String) (c : Card) :
    isBlankCard (restoreCardId fresh c) = isBlankCard c := by
  unfold isBlankCard
  rw [hasMeaningfulContent_restoreCardId]
  rfl

theorem finalizeCards_ne_nil (gen : Nat → String) :
    ∀ (i : Nat) (l : List Card), l ≠ [] → finalizeCards gen i l ≠ []
  | _, [], h => absurd rfl h
  | i, c :: rest, _ => by simp [finalizeCards]

theorem finalizeCards_all (gen : Nat → String) (p : Card → Bool)
    (hp : ∀ f c, p (restoreCardId f c) = p c) :
    ∀ (i : Nat) (l : List Card), (finalizeCards gen i l).all p = l.all p
  | _, [] => rfl
  | i, c :: rest => by
    simp [finalizeCards, List.all_cons, hp, finalizeCards_all gen p hp (i + 1) rest]

theorem finalizeCards_getLast? (gen : Nat → String) :
    ∀ (i : Nat) (l : List Card) (c : Card), l.getLast? = some c →
      ∃ f, (finalizeCards gen i l).getLast? = some (restoreCardId f c)
  | _, [], c, h => by simp at h
  | i, a :: rest, c, h => by
    cases rest with
    | nil =>
      have : a = c := by simpa using h
      subst this
      exact ⟨gen (i + 1), rfl⟩
    | cons b t =>
      have h' : (b :: t).getLast? = some c := by
        rw [← getLast?_cons_of_ne_nil a (b :: t) (by simp)]
        exact h
      obtain ⟨f, hf⟩ := finalizeCards_getLast? gen (i + 1) (b :: t) c h'
      refine ⟨f, ?_⟩
      rw [show finalizeCards gen i (a :: b :: t)
          = restoreCardId (gen (i + 1)) a :: finalizeCards gen (i + 1) (b :: t) from rfl]
      rw [getLast?_cons_of_ne_nil _ _ (finalizeCards_ne_nil gen (i + 1) (b :: t) (by simp))]
      exact hf

theorem finalizeCards_dropLast_all (gen : Nat → String) (p : Card → Bool)
    (hp : ∀ f c, p (restoreCardId f c) = p c) :
    ∀ (i : Nat) (l : List Card),
      ((finalizeCards gen i l).dropLast).all p = (l.dropLast).all p
  | _, [] => rfl
  | i, a :: rest => by
    cases rest with
    | nil => rfl
    | cons b t =>
      rw [show finalizeCards gen i (a :: b :: t)
          = restoreCardId (gen (i + 1)) a :: finalizeCards gen (i + 1) (b :: t) from rfl]
      rw [List.dropLast_cons_of_ne_nil (finalizeCards_ne_nil gen (i + 1) (b :: t) (by simp)),
        List.dropLast_cons_of_ne_nil (show (b :: t) ≠ [] by simp)]
      simp only [List.all_cons, hp]
      rw [finalizeCards_dropLast_all gen p hp (i + 1) (b :: t)]

theorem normalizeFactsForState_trailing (f : List String) :
    normalizeFactsForState f ≠ [] ∧
    (∀ t, (normalizeFactsForState f).getLast? = some t → jsTrim t = "") ∧
    (∀ t ∈ (normalizeFactsForState f).dropLast, jsTrim t ≠ "") := by
  unfold normalizeFactsForState
  by_cases h0 : 0 < (keepOrLast factNonblank (f.length - 1) 0 f).length
  · have hfne : f ≠ [] := by
      intro hf
      rw [hf] at h0
      simp [keepOrLast] at h0
    have hlen : 0 + f.length = (f.length - 1) + 1 := by
      have : 0 < f.length := List.length_pos.mpr hfne
      omega
    have hKne : keepOrLast factNonblank (f.length - 1) 0 f ≠ [] := by
      intro hk
      rw [hk] at h0
      simp at h0
    have hdrop := keepOrLast_dropLast_all factNonblank (f.length - 1) 0 f hlen
    simp only [if_pos h0]
    by_cases hb :
        factNonblank ((keepOrLast factNonblank (f.length - 1) 0 f).getLastD "") = true
    · rw [if_pos hb]
      refine ⟨by simp, ?_, ?_⟩
      · intro t ht
        rw [List.getLast?_concat] at ht
        cases ht
        rfl
      · intro t ht
        rw [List.dropLast_concat] at ht
        rcases List.mem_append.mp
            ((List.dropLast_append_getLast hKne) ▸ ht : t ∈ _) with hmem | hmem
        · have := (List.all_eq_true.mp hdrop) t hmem
          simpa [factNonblank] using this
        · have : t = (keepOrLast factNonblank (f.length - 1) 0 f).getLast hKne := by
            simpa using hmem
          subst this
          rw [List.getLastD_eq_getLast?,
            List.getLast?_eq_getLast _ hKne] at hb
          simpa [factNonblank] using hb
    · rw [if_neg hb]
      refine ⟨hKne, ?_, ?_⟩
      · intro t ht
        rw [List.getLastD_eq_getLast?, ht] at hb
        simpa [factNonblank] using hb
      · intro t ht
        have := (List.all_eq_true.mp hdrop) t ht
        simpa [factNonblank] using this
  · simp only [if_neg h0]
    have hlast : (([""] : List String).getLastD "") = "" := rfl
    rw [hlast, factNonblank_empty]
    refine ⟨by simp, ?_, ?_⟩
    · intro t ht
      simp at ht
      subst ht
      rfl
    · intro t ht
      simp at ht

theorem filterOutIndex_of_lt :
    ∀ (idx i : Nat) (l : List String), idx < i → filterOutIndex idx i l = l
  | _, _, [], _ => rfl
  | idx, i, t :: rest, h => by
    have hne : (i == idx) = false := by
      rw [beq_eq_false_iff_ne]
      omega
    rw [show filterOutIndex idx i (t :: rest) = t :: filterOutIndex idx (i + 1) rest by
      simp [filterOutIndex, hne]]
    rw [filterOutIndex_of_lt idx (i + 1) rest (by omega)]

theorem filterOutIndex_eq_eraseIdx :
    ∀ (idx i : Nat) (l : List String), i ≤ idx →
      filterOutIndex idx i l = l.eraseIdx (idx - i)
  | _, _, [], _ => by simp [filterOutIndex]
  | idx, i, t :: rest, h => by
    by_cases hi : i = idx
    · subst hi
      simp only [filterOutIndex, beq_self_eq_true, if_pos rfl]
      rw [filterOutIndex_of_lt i (i + 1) rest (by omega)]
      simp
    · have hlt : i < idx := by omega
      have hne : (i == idx) = false := by
        rw [beq_eq_false_iff_ne]
        omega
      rw [show filterOutIndex idx i (t :: rest) = t :: filterOutIndex idx (i + 1) rest by
        simp [filterOutIndex, hne]]
      rw [filterOutIndex_eq_eraseIdx idx (i + 1) rest (by omega)]
      have hsub : idx - i = (idx - (i + 1)) + 1 := by omega
      rw [hsub]
      rfl

theorem mem_of_getLast?_eq {α : Type} (l : List α) (a : α) (h : l.getLast? = some a) :
    a ∈ l := by
  have hne : l ≠ [] := by
    intro h0
    rw [h0] at h
    simp at h
  rw [List.getLast?_eq_getLast l hne] at h
  rw [(Option.some.inj h).symm]
  exact List.getLast_mem hne

theorem all_of_dropLast_getLast {α : Type} (p : α → Bool) (l : List α) (h : l ≠ [])
    (h1 : (l.dropLast).all p = true) (h2 : ∀ c, l.getLast? = some c → p c = true) :
    l.all p = true := by
  rw [← List.dropLast_append_getLast h, List.all_append]
  refine (Bool.and_eq_true _ _).mpr ⟨h1, ?_⟩
  simp only [List.all_cons, List.all_nil, Bool.and_true]
  exact h2 _ (List.getLast?_eq_getLast l h)

theorem isBlankCard_createBlankCard (fresh nowStr : String) :
    isBlankCard (createBlankCard fresh nowStr) = true := rfl

theorem isBlankCard_false_of_keep (c : Card)
    (h : (hasMeaningfulContent c || c.encounterId.isSome) = true) :
    isBlankCard c = false := by
  unfold isBlankCard
  rcases (Bool.or_eq_true _ _).mp h with h1 | h1
  · simp [h1]
  · simp [h1, Option.isNone_eq_false_iff, Option.isSome_iff_ne_none.mp h1]

theorem withTrailingBlank_of_nil (blank : Card) (trimmed : List Card)
    (h : trimmed.getLast? = none) : withTrailingBlank blank trimmed = trimmed ++ [blank] := by
  unfold withTrailingBlank
  rw [h]

theorem withTrailingBlank_of_keep (blank : Card) (trimmed : List Card) (Lc : Card)
    (h : trimmed.getLast? = some Lc)
    (hb : (hasMeaningfulContent Lc || Lc.encounterId.isSome) = true) :
    withTrailingBlank blank trimmed = trimmed ++ [blank] := by
  unfold withTrailingBlank
  rw [h]
  simp [hb]

theorem withTrailingBlank_of_blank (blank : Card) (trimmed : List Card) (Lc : Card)
    (h : trimmed.getLast? = some Lc)
    (hb : (hasMeaningfulContent Lc || Lc.encounterId.isSome) = false) :
    withTrailingBlank blank trimmed = trimmed := by
  unfold withTrailingBlank
  rw [h]
  simp [hb]

theorem ensureTrailingBlankCard_invariant (gen : Nat → String) (nowStr : String)
    (cards : List Card)
    (hnp : ∀ c ∈ cards, c.personId.isSome = true →
      (hasMeaningfulContent c || c.encounterId.isSome) = true) :
    ensureTrailingBlankCard gen nowStr cards ≠ [] ∧
    (∀ c, (ensureTrailingBlankCard gen nowStr cards).getLast? = some c →
      isBlankCard c = true) ∧
    ((ensureTrailingBlankCard gen nowStr cards).dropLast).all
      (fun c => !isBlankCard c) = true := by
  have hpinv : ∀ f c, (!isBlankCard (restoreCardId f c)) = (!isBlankCard c) := by
    intro f c
    rw [isBlankCard_restoreCardId]
  have hbinv : ∀ f c, isBlankCard (restoreCardId f c) = isBlankCard c := by
    intro f c
    rw [isBlankCard_restoreCardId]
  unfold ensureTrailingBlankCard
  by_cases hne : cards = []
  · subst hne
    have htrim : trimBlankCards ([] : List Card) = [] := rfl
    rw [htrim, withTrailingBlank_of_nil _ ([] : List Card) rfl]
    refine ⟨finalizeCards_ne_nil gen 0 _ (by simp), ?_, ?_⟩
    · intro c hc
      obtain ⟨f, hf⟩ := finalizeCards_getLast? gen 0 ([] ++ [createBlankCard (gen 0) nowStr])
        (createBlankCard (gen 0) nowStr) (by simp)
      rw [hf] at hc
      rw [← Option.some.inj hc, hbinv]
      exact isBlankCard_createBlankCard _ _
    · rfl
  · have hlen : 0 + cards.length = (cards.length - 1) + 1 := by
      have : 0 < cards.length := List.length_pos.mpr hne
      omega
    have hKlast : (trimBlankCards cards).getLast? = cards.getLast? :=
      keepOrLast_getLast? _ _ 0 cards hlen
    have hKne : trimBlankCards cards ≠ [] :=
      keepOrLast_ne_nil _ _ 0 cards hne hlen
    have hKdrop : ((trimBlankCards cards).dropLast).all (fun c => !isBlankCard c) = true :=
      keepOrLast_dropLast_all (fun c => !isBlankCard c) (cards.length - 1) 0 cards hlen
    obtain ⟨Lc, hLc⟩ : ∃ Lc, cards.getLast? = some Lc := by
      cases h : cards.getLast? with
      | none => rw [List.getLast?_eq_getLast cards hne] at h; simp at h
      | some x => exact ⟨x, rfl⟩
    rw [hLc] at hKlast
    by_cases hb : (hasMeaningfulContent Lc || Lc.encounterId.isSome) = true
    · rw [withTrailingBlank_of_keep _ _ Lc hKlast hb]
      refine ⟨finalizeCards_ne_nil gen 0 _ (by simp), ?_, ?_⟩
      · intro c hc
        obtain ⟨f, hf⟩ := finalizeCards_getLast? gen 0 _ (createBlankCard (gen 0) nowStr)
          (List.getLast?_concat _)
        rw [hf] at hc
        rw [← Option.some.inj hc, hbinv]
        exact isBlankCard_createBlankCard _ _
      · rw [finalizeCards_dropLast_all gen _ hpinv, List.dropLast_concat]
        refine all_of_dropLast_getLast _ _ hKne hKdrop ?_
        intro c hc
        rw [hKlast] at hc
        rw [← Option.some.inj hc]
        simp [isBlankCard_false_of_keep Lc hb]
    · have hbf : (hasMeaningfulContent Lc || Lc.encounterId.isSome) = false :=
        Bool.not_eq_true _ ▸ (by simpa using hb)
      rw [withTrailingBlank_of_blank _ _ Lc hKlast hbf]
      have hLblank : isBlankCard Lc = true := by
        have hmem : Lc ∈ cards := mem_of_getLast?_eq cards Lc hLc
        have hpid : Lc.personId.isSome = false := by
          cases hp : Lc.personId.isSome
          · rfl
          · exact absurd (hnp Lc hmem hp) hb
        unfold isBlankCard
        have h1 : hasMeaningfulContent Lc = false := by
          cases h1 : hasMeaningfulContent Lc
          · rfl
          · exact absurd (by simp [h1]) hb
        have h2 : Lc.encounterId.isSome = false := by
          cases h2 : Lc.encounterId.isSome
          · rfl
          · exact absurd (by simp [h2]) hb
        rw [h1]
        rw [Option.isNone_iff_eq_none.mpr (Option.not_isSome_iff_eq_none.mp (by simp [h2])),
          Option.isNone_iff_eq_none.mpr (Option.not_isSome_iff_eq_none.mp (by simp [hpid]))]
        rfl
      refine ⟨finalizeCards_ne_nil gen 0 _ hKne, ?_, ?_⟩
      · intro c hc
        obtain ⟨f, hf⟩ := finalizeCards_getLast? gen 0 _ _ hKlast
        rw [hf] at hc
        rw [← Option.some.inj hc, hbinv]
        exact hLblank
      · rw [finalizeCards_dropLast_all gen _ hpinv]
        exact hKdrop

theorem str_append_ne_empty_left (a b : String) (h : a ≠ "") : a ++ b ≠ "" := by
  intro hc
  apply h
  have hd : (a ++ b).data = ([] : List Char) := by rw [hc]
  rw [String.data_append] at hd
  exact String.ext (List.append_eq_nil.mp hd).1

theorem buildDisplayName_ne_empty_iff (name memo : String) :
    buildDisplayName name memo ≠ "" ↔ (jsTrim name ≠ "" ∨ jsTrim memo ≠ "") := by
  unfold buildDisplayName
  by_cases hm : (jsTrim memo != "") = true
  · by_cases hcond :
        (jsTrim memo != "" && (jsTrim name == "" || !hasLastName (jsTrim name))) = true
    · rw [if_pos hcond]
      by_cases hn : (jsTrim name != "") = true
      · rw [if_pos hn]
        constructor
        · intro _
          exact Or.inl (bne_iff_ne.mp hn)
        · intro _
          exact str_append_ne_empty_left _ _
            (str_append_ne_empty_left _ _ (bne_iff_ne.mp hn))
      · rw [if_neg hn]
        constructor
        · intro _
          exact Or.inr (bne_iff_ne.mp hm)
        · intro _
          exact bne_iff_ne.mp hm
    · rw [if_neg hcond]
      have hn : jsTrim name ≠ "" := by
        intro h0
        apply hcond
        rw [Bool.and_eq_true]
        refine ⟨hm, ?_⟩
        rw [Bool.or_eq_true]
        exact Or.inl (beq_iff_eq.mpr h0)
      constructor
      · intro _
        exact Or.inl hn
      · intro _
        exact hn
  · have hmeq : jsTrim memo = "" :=
      bne_eq_false_iff_eq.mp (Bool.not_eq_true _ ▸ (by simpa using hm))
    rw [if_neg (by simp [Bool.and_eq_true, hm])]
    constructor
    · intro h
      exact Or.inl h
    · rintro (h | h)
      · exact h
      · exact absurd hmeq h

theorem shouldPersistCard_iff (c : Card) :
    shouldPersistCard c = true ↔
      ((jsTrim c.personName ≠ "" ∨ jsTrim c.memo ≠ "") ∧
        (buildFactsPayload c.facts ≠ [] ∨ jsTrim c.placeLabel ≠ "")) := by
  unfold shouldPersistCard
  rw [Bool.and_eq_true, Bool.or_eq_true]
  constructor
  · rintro ⟨h1, h2⟩
    refine ⟨(buildDisplayName_ne_empty_iff _ _).mp (bne_iff_ne.mp h1), ?_⟩
    rcases h2 with h2 | h2
    · exact Or.inl (List.length_pos.mp (of_decide_eq_true h2))
    · exact Or.inr (bne_iff_ne.mp h2)
  · rintro ⟨h1, h2⟩
    refine ⟨bne_iff_ne.mpr ((buildDisplayName_ne_empty_iff _ _).mpr h1), ?_⟩
    rcases h2 with h2 | h2
    · exact Or.inl (decide_eq_true (List.length_pos.mpr h2))
    · exact Or.inr (bne_iff_ne.mpr h2)

/-- The per-key timer registry of the scheduler (`timersRef`): a JS `Map`
from client key to the armed timeout id, together with a counter supplying
fresh timeout ids.  A pair present in `timers` is an armed, not-yet-fired,
not-yet-cancelled timer; `clearTimeout` removes the pair, so a removed timer
never fires. -/
structure SchedulerState where
  timers : List (String × Nat)
  nextTimerId : Nat
deriving DecidableEq, Repr

/-- `timersRef.current.delete(key)` together with the `clearTimeout` of the
timer stored under `key`. -/
def timersDelete (ts : List (String × Nat)) (key : String) : List (String × Nat) :=
  ts.filter (fun p => p.1 != key)

/-- `timersRef.current.set(key, timeoutId)` after the old timer for `key`
was cleared (JS `Map` keys are unique). -/
def timersSet (ts : List (String × Nat)) (key : String) (v : Nat) : List (String × Nat) :=
  timersDelete ts key ++ [(key, v)]

/-- Source `queueSave` (Home.js): a snapshot failing the persist-worthy
predicate clears and removes any existing timer; otherwise the existing
timer is cleared and a fresh one is armed under the snapshot's key. -/
def queueSave (s : SchedulerState) (snapshot : Card) : SchedulerState :=
  if shouldPersistCard snapshot then
    { timers := timersSet s.timers snapshot.clientId s.nextTimerId,
      nextTimerId := s.nextTimerId + 1 }
  else { s with timers := timersDelete s.timers snapshot.clientId }

/-- The observable content of one `persistCard` resolver invocation: the
arguments flowing to `upsertPersonByName` and the encounter payload, all
computed from the card state read at fire time. -/
structure PersistCall where
  key : String
  displayName : String
  memoExtra : Option String
  place : String
  facts : List (Nat × String)
deriving DecidableEq, Repr

/-- The persistence call `persistCard` issues for a card: display name,
optional `{memo}` extra, `place || 'Unspecified place'`, and facts payload. -/
def mkPersistCall (c : Card) : PersistCall :=
  { key := c.clientId,
    displayName := buildDisplayName c.personName c.memo,
    memoExtra := if jsTrim c.memo != "" then some (jsTrim c.memo) else none,
    place := if jsTrim c.placeLabel != "" then jsTrim c.placeLabel else "Unspecified place",
    facts := buildFactsPayload c.facts }

/-- Firing of the timeout callback `persistCard(key)`: re-read the current
card state for the key (`cardsRef.current.find(...)`) and invoke the
resolver only when the card still exists and is persist-worthy. -/
def persistTrigger (store : List Card) (key : String) : Option PersistCall :=
  match store.find? (fun c => c.clientId == key) with
  | none => none
  | some latest =>
    if shouldPersistCard latest then some (mkPersistCall latest) else none

/-- Fire every timer still armed in the registry against the current card
state `store`; cancelled timers are absent from the registry and never run. -/
def runPendingTimers (store : List Card) (s : SchedulerState) : List PersistCall :=
  s.timers.filterMap (fun p => persistTrigger store p.1)

/-- Registry invariant: every armed timeout id was drawn from the counter. -/
def schedTimerIdsFresh (s : SchedulerState) : Prop :=
  ∀ p ∈ s.timers, p.2 < s.nextTimerId

theorem filter_key_timersDelete (ts : List (String × Nat)) (k : String) :
    (timersDelete ts k).filter (fun p => p.1 == k) = [] := by
  rw [List.filter_eq_nil_iff]
  intro p hp
  have := (List.mem_filter.mp hp).2
  simp only [bne_iff_ne, ne_eq] at this
  simp [this]

theorem filter_key_timersSet (ts : List (String × Nat)) (k : String) (v : Nat) :
    (timersSet ts k v).filter (fun p => p.1 == k) = [(k, v)] := by
  unfold timersSet
  rw [List.filter_append, filter_key_timersDelete]
  simp

theorem filter_ne_key_timersDelete (ts : List (String × Nat)) (k k' : String)
    (h : k' ≠ k) :
    (timersDelete ts k).filter (fun p => p.1 == k')
      = ts.filter (fun p => p.1 == k') := by
  unfold timersDelete
  induction ts with
  | nil => rfl
  | cons p rest ih =>
    by_cases hp : p.1 = k
    · have h1 : (p.1 != k) = false := bne_eq_false_iff_eq.mpr hp
      have h2 : (p.1 == k') = false := by
        rw [beq_eq_false_iff_ne, hp]
        exact fun hk => h hk.symm
      rw [show List.filter (fun p => p.1 != k) (p :: rest)
          = List.filter (fun p => p.1 != k) rest by
        rw [List.filter_cons, h1]; simp]
      rw [show List.filter (fun p => p.1 == k') (p :: rest)
          = List.filter (fun p => p.1 == k') rest by
        rw [List.filter_cons, h2]; simp]
      exact ih
    · have h1 : (p.1 != k) = true := bne_iff_ne.mpr hp
      rw [show List.filter (fun p => p.1 != k) (p :: rest)
          = p :: List.filter (fun p => p.1 != k) rest by
        rw [List.filter_cons, if_pos h1]]
      rw [List.filter_cons, List.filter_cons, ih]

theorem queueSave_filter_key_not_worthy (s : SchedulerState) (snap : Card)
    (hw : shouldPersistCard snap = false) :
    (queueSave s snap).timers.filter (fun p => p.1 == snap.clientId) = [] := by
  unfold queueSave
  rw [hw, if_neg (show ¬(false = true) by simp)]
  exact filter_key_timersDelete s.timers snap.clientId

theorem queueSave_filter_key_worthy (s : SchedulerState) (snap : Card)
    (hw : shouldPersistCard snap = true) :
    (queueSave s snap).timers.filter (fun p => p.1 == snap.clientId)
      = [(snap.clientId, s.nextTimerId)] := by
  unfold queueSave
  rw [hw, if_pos rfl]
  exact filter_key_timersSet s.timers snap.clientId s.nextTimerId

theorem queueSave_cancels_existing (s : SchedulerState) (snap : Card) (tid : Nat)
    (hinv : schedTimerIdsFresh s) (hmem : (snap.clientId, tid) ∈ s.timers) :
    (snap.clientId, tid) ∉ (queueSave s snap).timers := by
  have htid : tid < s.nextTimerId := hinv (snap.clientId, tid) hmem
  unfold queueSave
  by_cases hw : shouldPersistCard snap = true
  · rw [hw, if_pos rfl]
    intro hc
    rcases List.mem_append.mp hc with hc | hc
    · have := (List.mem_filter.mp hc).2
      simp at this
    · have : tid = s.nextTimerId := by
        have := List.mem_singleton.mp hc
        exact congrArg Prod.snd this
      omega
  · rw [show shouldPersistCard snap = false by simpa using hw,
      if_neg (show ¬(false = true) by simp)]
    intro hc
    have := (List.mem_filter.mp hc).2
    simp at this

theorem persistTrigger_key (store : List Card) (key : String) (call : PersistCall)
    (h : persistTrigger store key = some call) : call.key = key := by
  unfold persistTrigger at h
  cases hf : store.find? (fun c => c.clientId == key) with
  | none => rw [hf] at h; cases h
  | some latest =>
    rw [hf] at h
    dsimp only at h
    have hb : (latest.clientId == key) = true :=
      @List.find?_some Card (fun c => c.clientId == key) latest store hf
    have hcl : latest.clientId = key := beq_iff_eq.mp hb
    by_cases hw : shouldPersistCard latest = true
    · rw [if_pos hw] at h
      rw [← Option.some.inj h]
      exact hcl
    · rw [if_neg hw] at h
      cases h

theorem filterMap_trigger_filter (store : List Card) (k : String) :
    ∀ l : List (String × Nat),
      ((l.filterMap (fun p => persistTrigger store p.1)).filter
          (fun call => call.key == k))
        = (l.filter (fun p => p.1 == k)).filterMap (fun p => persistTrigger store p.1)
  | [] => rfl
  | p :: rest => by
    cases ht : persistTrigger store p.1 with
    | none =>
      by_cases hk : (p.1 == k) = true
      · rw [List.filterMap_cons, ht, List.filter_cons, if_pos hk, List.filterMap_cons, ht]
        exact filterMap_trigger_filter store k rest
      · rw [List.filterMap_cons, ht, List.filter_cons,
          if_neg (by simpa using hk)]
        exact filterMap_trigger_filter store k rest
    | some call =>
      have hkey : call.key = p.1 := persistTrigger_key store p.1 call ht
      by_cases hk : (p.1 == k) = true
      · rw [List.filterMap_cons, ht, List.filter_cons,
          if_pos (by rw [hkey]; exact hk), List.filter_cons, if_pos hk,
          List.filterMap_cons, ht]
        rw [filterMap_trigger_filter store k rest]
      · rw [List.filterMap_cons, ht, List.filter_cons,
          if_neg (by rw [hkey]; simpa using hk), List.filter_cons,
          if_neg (by simpa using hk)]
        exact filterMap_trigger_filter store k rest

theorem runPendingTimers_single (store : List Card) (s : SchedulerState)
    (k : String) (c : Card) (tid : Nat)
    (htimers : s.timers.filter (fun p => p.1 == k) = [(k, tid)])
    (hfind : store.find? (fun cc => cc.clientId == k) = some c)
    (hw : shouldPersistCard c = true) :
    (runPendingTimers store s).filter (fun call => call.key == k)
      = [mkPersistCall c] := by
  unfold runPendingTimers
  rw [filterMap_trigger_filter, htimers, List.filterMap_cons]
  have : persistTrigger store k = some (mkPersistCall c) := by
    unfold persistTrigger
    rw [hfind]
    dsimp only
    rw [if_pos hw]
  rw [this]
  rfl

/-- Per-card save status values (`saveStatus[clientId]`). -/
inductive SaveStatus where
  | saving
  | saved
  | error
deriving DecidableEq, Repr

/-- The Home screen state touched by `persistCard`: the card list, the
ephemeral per-key save status, and the scheduler registry. -/
structure AppState where
  cards : List Card
  saveStatus : List (String × SaveStatus)
  sched : SchedulerState
deriving DecidableEq, Repr

/-- `setSaveStatus(prev => ({...prev, [clientId]: v}))` (unique object keys). -/
def statusSet (m : List (String × SaveStatus)) (k : String) (v : SaveStatus) :
    List (String × SaveStatus) :=
  m.filter (fun p => p.1 != k) ++ [(k, v)]

/-- Look up the save status recorded for a key. -/
def statusOf (m : List (String × SaveStatus)) (k : String) : Option SaveStatus :=
  (m.find? (fun p => p.1 == k)).map (fun p => p.2)

/-- Result of the remote round-trip made by `persistCard` when it succeeds:
the resolved person id/display name and (for the create branch) the id of
the created encounter document. -/
structure RemoteOk where
  personId : String
  personDisplayName : String
  encounterId : String
deriving DecidableEq, Repr

/-- `findIndex` + copy-with-replacement on the card list: replace the first
card carrying the key. -/
def updateFirstCard (key : String) (f : Card → Card) : List Card → List Card
  | [] => []
  | c :: rest =>
    if c.clientId == key then f c :: rest else c :: updateFirstCard key f rest

/-- Source `persistCard` (Home.js), with the remote outcome made explicit:
`remote = none` models a rejected round-trip (the `catch` branch), `some r`
a successful one.  The callback re-reads the current card for the key; a
missing or non-persist-worthy card only clears the pending-timer entry.  On
failure the status becomes `error`, the card list is untouched and no timer
is re-armed; on success the card receives its persisted ids, the list
invariant is recomputed and the status becomes `saved`.  In every branch the
`finally` clause removes the timer entry.  (The model assumes Firebase is
configured; otherwise the callback is a no-op apart from the timer removal.) -/
def persistCard (gen : Nat → String) (nowStr : String) (st : AppState) (key : String)
    (remote : Option RemoteOk) : AppState :=
  match st.cards.find? (fun c => c.clientId == key) with
  | none => { st with sched := { st.sched with timers := timersDelete st.sched.timers key } }
  | some latest =>
    if shouldPersistCard latest then
      match remote with
      | none =>
        { st with
          saveStatus := statusSet (statusSet st.saveStatus key .saving) key .error,
          sched := { st.sched with timers := timersDelete st.sched.timers key } }
      | some r =>
        { cards :=
            ensureTrailingBlankCard gen nowStr
              (if latest.encounterId.isSome then
                updateFirstCard key (fun c =>
                  { c with
                    personId := some r.personId,
                    isNew := false,
                    needsSave := false }) st.cards
              else
                updateFirstCard key (fun c =>
                  { c with
                    encounterId := some r.encounterId,
                    personId := some r.personId,
                    isNew := false,
                    needsSave := false }) st.cards),
          saveStatus := statusSet (statusSet st.saveStatus key .saving) key .saved,
          sched := { st.sched with timers := timersDelete st.sched.timers key } }
    else { st with sched := { st.sched with timers := timersDelete st.sched.timers key } }

theorem statusOf_statusSet_same (m : List (String × SaveStatus)) (k : String)
    (v : SaveStatus) : statusOf (statusSet m k v) k = some v := by
  unfold statusOf statusSet
  rw [List.find?_append]
  have h1 : (m.filter (fun p => p.1 != k)).find? (fun p => p.1 == k) = none := by
    rw [List.find?_eq_none]
    intro p hp
    have := (List.mem_filter.mp hp).2
    simp only [bne_iff_ne, ne_eq] at this
    simp [this]
  rw [h1]
  simp

theorem statusOf_statusSet_other (m : List (String × SaveStatus)) (k k' : String)
    (v : SaveStatus) (h : k' ≠ k) : statusOf (statusSet m k v) k' = statusOf m k' := by
  unfold statusOf statusSet
  rw [List.find?_append]
  have h2 : (List.find? (fun p => p.1 == k') [(k, v)]) = none := by
    simp [beq_eq_false_iff_ne]
    exact fun hk => h hk.symm
  have h1 : (m.filter (fun p => p.1 != k)).find? (fun p => p.1 == k')
      = m.find? (fun p => p.1 == k') := by
    induction m with
    | nil => rfl
    | cons p rest ih =>
      by_cases hp : p.1 = k
      · have hb1 : (p.1 != k) = false := bne_eq_false_iff_eq.mpr hp
        have hb2 : (p.1 == k') = false := by
          rw [beq_eq_false_iff_ne, hp]
          exact fun hk => h hk.symm
        rw [show List.filter (fun p => p.1 != k) (p :: rest)
            = List.filter (fun p => p.1 != k) rest by
          rw [List.filter_cons, hb1]; simp]
        rw [ih, @List.find?_cons_of_neg _ (fun p => p.1 == k') p rest (by simp [hb2])]
      · have hb1 : (p.1 != k) = true := bne_iff_ne.mpr hp
        rw [show List.filter (fun p => p.1 != k) (p :: rest)
            = p :: List.filter (fun p => p.1 != k) rest by
          rw [List.filter_cons, if_pos hb1]]
        by_cases hb2 : (p.1 == k') = true
        · rw [@List.find?_cons_of_pos _ (fun p => p.1 == k') p _ hb2,
            @List.find?_cons_of_pos _ (fun p => p.1 == k') p _ hb2]
        · rw [@List.find?_cons_of_neg _ (fun p => p.1 == k') p _ hb2,
            @List.find?_cons_of_neg _ (fun p => p.1 == k') p _ hb2, ih]
  rw [h1]
  cases hm : m.find? (fun p => p.1 == k') with
  | none =>
    rw [h2]
    rfl
  | some p => rfl

/-- A Firestore field value as used by the legacy person handlers: strings,
facts arrays, free-text item arrays and nested objects. -/
inductive Val where
  | s (v : String)
  | factsV (v : List (Nat × String))
  | itemsV (v : List String)
  | obj (fs : List (String × Val))

/-- A JS object / Firestore document: an association list with unique keys. -/
abbrev Fields := List (String × Val)

/-- Property lookup `o[k]`. -/
def getField (fs : Fields) (k : String) : Option Val :=
  (fs.find? (fun p => p.1 == k)).map (fun p => p.2)

/-- Whether the object carries the key. -/
def fieldsHas (fs : Fields) (k : String) : Bool :=
  fs.any (fun p => p.1 == k)

/-- Property assignment / single-key spread `{...o, k: v}`: overwrite the
value in place when the key exists, else append the key. -/
def setKV (fs : Fields) (k : String) (v : Val) : Fields :=
  if fs.any (fun p => p.1 == k) then
    fs.map (fun p => if p.1 == k then (k, v) else p)
  else fs ++ [(k, v)]

/-- Object spread `{...old, ...new}`: keys of `new` win, keys only in `old`
are preserved. -/
def mergeFields (old new : Fields) : Fields :=
  old.filter (fun p => !(new.any (fun q => q.1 == p.1))) ++ new

/-- String-valued lookup, `''` when the key is absent or not a string
(models `(o.k ?? '')` on the string fields the handlers read). -/
def getStr (fs : Fields) (k : String) : String :=
  match getField fs k with
  | some (.s v) => v
  | _ => ""

/-- Test `doc.data()[field] === value` for a string value, the only query
shape `getDocumentsByField` is used with. -/
def strFieldIs (fs : Fields) (k v : String) : Bool :=
  match getField fs k with
  | some (.s w) => w == v
  | _ => false

theorem bool_eq_false {b : Bool} (h : ¬ b = true) : b = false := by
  cases b
  · rfl
  · exact absurd rfl h

theorem find?_key_map_setKV {β : Type} (fs : List (String × β)) (k : String) (v : β) :
    (fs.map (fun p => if p.1 == k then (k, v) else p)).find? (fun p => p.1 == k)
      = if fs.any (fun p => p.1 == k) then some (k, v) else none := by
  induction fs with
  | nil => rfl
  | cons p rest ih =>
    by_cases hp : (p.1 == k) = true
    · rw [List.map_cons, if_pos hp]
      rw [@List.find?_cons_of_pos _ (fun p => p.1 == k) (k, v) _ (by simp)]
      have hany : ((p :: rest).any (fun p => p.1 == k)) = true := by
        rw [List.any_cons, hp, Bool.true_or]
      rw [if_pos hany]
    · rw [List.map_cons, if_neg hp]
      rw [@List.find?_cons_of_neg _ (fun p => p.1 == k) p _ hp, ih]
      rw [List.any_cons, bool_eq_false hp, Bool.false_or]

theorem find?_other_map_setKV {β : Type} (fs : List (String × β)) (k k' : String)
    (v : β) (h : k' ≠ k) :
    (fs.map (fun p => if p.1 == k then (k, v) else p)).find? (fun p => p.1 == k')
      = fs.find? (fun p => p.1 == k') := by
  have hkk : ((k : String) == k') = false := by
    rw [beq_eq_false_iff_ne]
    exact fun hk => h hk.symm
  induction fs with
  | nil => rfl
  | cons p rest ih =>
    by_cases hp : (p.1 == k) = true
    · have hp' : (p.1 == k') = false := by
        rw [beq_eq_false_iff_ne, beq_iff_eq.mp hp]
        exact fun hk => h hk.symm
      rw [List.map_cons, if_pos hp]
      rw [@List.find?_cons_of_neg _ (fun p => p.1 == k') (k, v) _ (by simp [hkk]),
        @List.find?_cons_of_neg _ (fun p => p.1 == k') p _ (by simp [hp'])]
      exact ih
    · rw [List.map_cons, if_neg hp]
      by_cases hp' : (p.1 == k') = true
      · rw [@List.find?_cons_of_pos _ (fun p => p.1 == k') p _ hp',
          @List.find?_cons_of_pos _ (fun p => p.1 == k') p _ hp']
      · rw [@List.find?_cons_of_neg _ (fun p => p.1 == k') p _ hp',
          @List.find?_cons_of_neg _ (fun p => p.1 == k') p _ hp']
        exact ih

theorem getField_setKV_same (fs : Fields) (k : String) (v : Val) :
    getField (setKV fs k v) k = some v := by
  unfold setKV getField
  by_cases h : (fs.any (fun p => p.1 == k)) = true
  · rw [if_pos h, find?_key_map_setKV, if_pos h]
    rfl
  · rw [if_neg h, List.find?_append]
    have h1 : fs.find? (fun p => p.1 == k) = none := by
      rw [List.find?_eq_none]
      intro p hp hpk
      exact h (List.any_eq_true.mpr ⟨p, hp, hpk⟩)
    rw [h1]
    simp

theorem getField_setKV_other (fs : Fields) (k k' : String) (v : Val) (h : k' ≠ k) :
    getField (setKV fs k v) k' = getField fs k' := by
  unfold setKV getField
  have hkk : ((k : String) == k') = false := by
    rw [beq_eq_false_iff_ne]
    exact fun hk => h hk.symm
  by_cases hany : (fs.any (fun p => p.1 == k)) = true
  · rw [if_pos hany]
    rw [find?_other_map_setKV fs k k' v h]
  · rw [if_neg hany, List.find?_append]
    cases hf : fs.find? (fun p => p.1 == k') with
    | none =>
      rw [show List.find? (fun p => p.1 == k') [(k, v)] = none by simp [hkk]]
      rfl
    | some q => rfl

theorem find?_filter_of_imp {α : Type} (pred keep : α → Bool) (l : List α)
    (h : ∀ a, pred a = true → keep a = true) :
    (l.filter keep).find? pred = l.find? pred := by
  induction l with
  | nil => rfl
  | cons a rest ih =>
    by_cases hk : keep a = true
    · rw [show (a :: rest).filter keep = a :: rest.filter keep by
        rw [List.filter_cons, if_pos hk]]
      by_cases hp : pred a = true
      · rw [List.find?_cons_of_pos _ hp, List.find?_cons_of_pos _ hp]
      · rw [List.find?_cons_of_neg _ hp, List.find?_cons_of_neg _ hp]
        exact ih
    · have hp : pred a = false := by
        cases hpa : pred a
        · rfl
        · exact absurd (h a hpa) hk
      rw [show (a :: rest).filter keep = rest.filter keep by
        rw [List.filter_cons, if_neg hk]]
      rw [List.find?_cons_of_neg _ (by simp [hp]), ih]

theorem getField_mergeFields (old new : Fields) (k : String) :
    getField (mergeFields old new) k
      = if fieldsHas new k then getField new k else getField old k := by
  unfold mergeFields getField fieldsHas
  rw [List.find?_append]
  by_cases h : (new.any (fun q => q.1 == k)) = true
  · rw [if_pos h]
    have h1 : (old.filter (fun p => !(new.any (fun q => q.1 == p.1)))).find?
        (fun p => p.1 == k) = none := by
      rw [List.find?_eq_none]
      intro p hp hpk
      have hkeep := (List.mem_filter.mp hp).2
      rw [beq_iff_eq.mp hpk] at hkeep
      rw [h] at hkeep
      simp at hkeep
    rw [h1]
    simp
  · rw [if_neg h]
    have h2 : new.find? (fun p => p.1 == k) = none := by
      rw [List.find?_eq_none]
      intro p hp hpk
      exact h (List.any_eq_true.mpr ⟨p, hp, hpk⟩)
    have h1 : (old.filter (fun p => !(new.any (fun q => q.1 == p.1)))).find?
        (fun p => p.1 == k) = old.find? (fun p => p.1 == k) := by
      refine find?_filter_of_imp _ _ old ?_
      intro p hpk
      rw [beq_iff_eq.mp hpk]
      rw [bool_eq_false h]
      rfl
    rw [h1, h2, Option.or_none]

/-- One write issued against the Firestore adapter: `addDocument` or
`addSubcollectionDocument` with the payload and target id as passed. -/
inductive WriteOp where
  | addDoc (coll : String) (data : Fields) (docId : Option String)
  | addSubDoc (coll : String) (docId : String) (sub : String) (data : Fields)
      (subId : Option String)

/-- The store state the legacy person handlers operate on: the `people` and
`peopleIds` collections, the per-person `entries` subcollections, a counter
for Firestore auto-ids, and the log of every write issued. -/
structure PHState where
  people : List (String × Fields)
  peopleIds : List (String × Fields)
  entries : List (String × List (String × Fields))
  nextAutoId : Nat
  log : List WriteOp

/-- Firestore `setDoc(..., {merge: true})` at a known id: shallow-merge into
an existing document, else create it. -/
def setDocMerge (docs : List (String × Fields)) (id : String) (data : Fields) :
    List (String × Fields) :=
  if docs.any (fun p => p.1 == id) then
    docs.map (fun p => if p.1 == id then (id, mergeFields p.2 data) else p)
  else docs ++ [(id, data)]

/-- Firestore auto-generated document ids. -/
def autoId (n : Nat) : String := "auto" ++ toString n

/-- Source `addDocument` (firebaseService.js): with a non-blank string id,
`setDoc` with merge semantics; otherwise `addDoc` with a fresh auto-id.  The
handlers only target the `people` and `peopleIds` collections.  Every call is
logged. -/
def addDocument (st : PHState) (coll : String) (data : Fields)
    (docId : Option String) : PHState × String :=
  let logged : PHState := { st with log := st.log ++ [WriteOp.addDoc coll data docId] }
  match docId with
  | some id =>
    if jsTrim id != "" then
      (if coll == "people" then
        ({ logged with people := setDocMerge logged.people id data }, id)
      else if coll == "peopleIds" then
        ({ logged with peopleIds := setDocMerge logged.peopleIds id data }, id)
      else (logged, id))
    else
      (if coll == "people" then
        ({ logged with
            people := logged.people ++ [(autoId logged.nextAutoId, data)],
            nextAutoId := logged.nextAutoId + 1 }, autoId logged.nextAutoId)
      else if coll == "peopleIds" then
        ({ logged with
            peopleIds := logged.peopleIds ++ [(autoId logged.nextAutoId, data)],
            nextAutoId := logged.nextAutoId + 1 }, autoId logged.nextAutoId)
      else ({ logged with nextAutoId := logged.nextAutoId + 1 }, autoId logged.nextAutoId))
  | none =>
    (if coll == "people" then
      ({ logged with
          people := logged.people ++ [(autoId logged.nextAutoId, data)],
          nextAutoId := logged.nextAutoId + 1 }, autoId logged.nextAutoId)
    else if coll == "peopleIds" then
      ({ logged with
          peopleIds := logged.peopleIds ++ [(autoId logged.nextAutoId, data)],
          nextAutoId := logged.nextAutoId + 1 }, autoId logged.nextAutoId)
    else ({ logged with nextAutoId := logged.nextAutoId + 1 }, autoId logged.nextAutoId))

/-- The entries subcollection `people/{personId}/entries`. -/
def entriesOf (st : PHState) (personId : String) : List (String × Fields) :=
  match st.entries.find? (fun p => p.1 == personId) with
  | some p => p.2
  | none => []

/-- Replace the entries subcollection of one person. -/
def setEntries (st : PHState) (personId : String) (docs : List (String × Fields)) :
    PHState :=
  if st.entries.any (fun p => p.1 == personId) then
    { st with
      entries := st.entries.map (fun p => if p.1 == personId then (personId, docs) else p) }
  else { st with entries := st.entries ++ [(personId, docs)] }

/-- Source `addSubcollectionDocument` (firebaseService.js) specialised to the
`people/{docId}/entries` path the handlers use: `setDoc` with merge at a
non-blank explicit sub-id, `addDoc` with an auto-id otherwise.  Logged. -/
def addSubcollectionDocument (st : PHState) (coll : String) (docId : String)
    (sub : String) (data : Fields) (subId : Option String) : PHState × String :=
  let logged : PHState :=
    { st with log := st.log ++ [WriteOp.addSubDoc coll docId sub data subId] }
  match subId with
  | some id =>
    if jsTrim id != "" then
      (setEntries logged docId (setDocMerge (entriesOf logged docId) id data), id)
    else
      ({ setEntries logged docId
          (entriesOf logged docId ++ [(autoId logged.nextAutoId, data)]) with
          nextAutoId := logged.nextAutoId + 1 }, autoId logged.nextAutoId)
  | none =>
    ({ setEntries logged docId
        (entriesOf logged docId ++ [(autoId logged.nextAutoId, data)]) with
        nextAutoId := logged.nextAutoId + 1 }, autoId logged.nextAutoId)

/-- Source `normalizeEntryDate` (personHandlers.js).  Modelled Date parsing:
dates in this development are ISO-8601 UTC strings, for which
`new Date(d).toISOString().slice(0, 10)` is the first ten characters; any
other value falls back to the current time. -/
def normalizeEntryDate (v : Val) (nowStr : String) : String :=
  match v with
  | .s d => if 10 ≤ d.length then d.take 10 else nowStr.take 10
  | _ => nowStr.take 10

/-- The calendar-day key `writeEntryForDate` computes:
`normalizeEntryDate(entryData.date ?? now())`. -/
def entryDayOf (entryData : Fields) (nowStr : String) : String :=
  normalizeEntryDate ((getField entryData "date").getD (Val.s nowStr)) nowStr

/-- The payload `writeEntryForDate` builds before consulting the store:
`{...entryData, date: entryData.date ?? now(), entryDate}`. -/
def entryPayloadOf (entryData : Fields) (nowStr : String) : Fields :=
  setKV (setKV entryData "date" ((getField entryData "date").getD (Val.s nowStr)))
    "entryDate" (Val.s (entryDayOf entryData nowStr))

/-- Source `writeEntryForDate` (personHandlers.js): stamp the payload with
`date` (defaulting to now) and the calendar-day key `entryDate`, query the
existing entry for that day, shallow-merge into it when present, and write
under the existing id or the day key. -/
def writeEntryForDate (st : PHState) (personId : String) (entryData : Fields)
    (nowStr : String) : PHState × String :=
  match ((entriesOf st personId).filter
      (fun p => strFieldIs p.2 "entryDate" (entryDayOf entryData nowStr))) with
  | [] =>
    ((addSubcollectionDocument st "people" personId "entries"
        (entryPayloadOf entryData nowStr) (some (entryDayOf entryData nowStr))).1,
      entryDayOf entryData nowStr)
  | d :: _ =>
    ((addSubcollectionDocument st "people" personId "entries"
        (mergeFields d.2 (entryPayloadOf entryData nowStr)) (some d.1)).1, d.1)

/-- Source `requireUniqueIdentifier` (personHandlers.js). -/
def requireUniqueIdentifier (normalizedName normalizedMemo : String) : Bool :=
  !(normalizedMemo == "" && (normalizedName == "" || !hasLastName normalizedName))

/-- Source `buildIdentifier` (personHandlers.js). -/
def buildIdentifier (normalizedName normalizedMemo : String) : Option String :=
  if !requireUniqueIdentifier normalizedName normalizedMemo then none
  else if hasLastName normalizedName then some normalizedName
  else if normalizedMemo == "" then none
  else some (normalizedName ++ "-" ++ normalizedMemo)

/-- Source `normalizePersonData` (personHandlers.js): trimmed name and memo. -/
def normalizePersonData (data : Fields) : String × String :=
  (jsTrim (getStr data "name"), jsTrim (getStr data "memo"))

/-- First two steps of `buildEntryData`: stamp the normalized name and memo
onto the payload when they are non-empty. -/
def buildEntryDataBase (data : Fields) (normalizedName normalizedMemo : String) :
    Fields :=
  if normalizedMemo != "" then
    setKV (if normalizedName != "" then setKV data "name" (Val.s normalizedName) else data)
      "memo" (Val.s normalizedMemo)
  else
    (if normalizedName != "" then setKV data "name" (Val.s normalizedName) else data)

/-- Source `buildEntryData` (personHandlers.js): copy the payload, stamp the
normalized name/memo when non-empty, and blank the memo whenever the name
has a last name. -/
def buildEntryData (data : Fields) (normalizedName normalizedMemo : String) :
    Fields :=
  if hasLastName normalizedName then
    setKV (buildEntryDataBase data normalizedName normalizedMemo) "memo" (Val.s "")
  else buildEntryDataBase data normalizedName normalizedMemo

/-- Source `getPersonId` (personHandlers.js): resolve the identifier, query
the `peopleIds` mapping, and return the stored id (or the mapping doc id). -/
def getPersonId (st : PHState) (personData : Fields) : Option String :=
  match buildIdentifier (normalizePersonData personData).1
      (normalizePersonData personData).2 with
  | none => none
  | some ident =>
    match st.peopleIds.filter (fun p => strFieldIs p.2 "identifier" ident) with
    | [] => none
    | d :: _ =>
      match getField d.2 "id" with
      | some (.s i) => if i != "" then some i else some d.1
      | _ => some d.1

/-- Source `savePersonId` (personHandlers.js): store the identifier-to-id
mapping (no write when the identifier cannot be built). -/
def savePersonId (st : PHState) (personData : Fields) (id : String) : PHState :=
  match buildIdentifier (normalizePersonData personData).1
      (normalizePersonData personData).2 with
  | none => st
  | some ident =>
    (addDocument st "peopleIds" [("identifier", Val.s ident), ("id", Val.s id)] none).1

/-- The `{name, memo}` payload `ensurePersonId` merges into an existing
person document. -/
def personDocPayload (entryData : Fields) : Fields :=
  [("name", Val.s (getStr entryData "name")),
   ("memo", Val.s (getStr entryData "memo"))]

/-- The payload `ensurePersonId` stores for a new person document, with the
`firstImpressionInfo` stamp (`where: entryData.place || 'unknown'`). -/
def newPersonPayload (entryData : Fields) (nowStr : String) : Fields :=
  [("name", Val.s (getStr entryData "name")),
   ("memo", Val.s (getStr entryData "memo")),
   ("firstImpressionInfo", Val.obj
     [("date", Val.s nowStr),
      ("where", Val.s (if getStr entryData "place" != "" then
        getStr entryData "place" else "unknown"))])]

/-- Source `ensurePersonId` (personHandlers.js): reuse the mapped person doc
(merging name/memo into it) or create a person doc with first-impression
info and store the mapping. -/
def ensurePersonId (st : PHState) (entryData : Fields) (nowStr : String) :
    PHState × String :=
  match getPersonId st entryData with
  | some pid =>
    ((addDocument st "people" (personDocPayload entryData) (some pid)).1, pid)
  | none =>
    (savePersonId (addDocument st "people" (newPersonPayload entryData nowStr) none).1
        entryData (addDocument st "people" (newPersonPayload entryData nowStr) none).2,
      (addDocument st "people" (newPersonPayload entryData nowStr) none).2)

/-- Source `saveEntry` (personHandlers.js): refuse without a unique
identifier, else build the entry data, ensure the person document and write
the per-day entry.  Store operations never fail in the model, so the `catch`
branch is not taken. -/
def saveEntry (st : PHState) (data : Fields) (nowStr : String) :
    PHState × Option String :=
  if !requireUniqueIdentifier (normalizePersonData data).1
      (normalizePersonData data).2 then (st, none)
  else
    ((writeEntryForDate
        (ensurePersonId st (buildEntryData data (normalizePersonData data).1
          (normalizePersonData data).2) nowStr).1
        (ensurePersonId st (buildEntryData data (normalizePersonData data).1
          (normalizePersonData data).2) nowStr).2
        (buildEntryData data (normalizePersonData data).1 (normalizePersonData data).2)
        nowStr).1,
      some (ensurePersonId st (buildEntryData data (normalizePersonData data).1
        (normalizePersonData data).2) nowStr).2)

/-- First stored entry of the person matching a calendar-day key, as
returned by the `getDocumentsByField` query in `writeEntryForDate`. -/
def firstEntryMatch (st : PHState) (pid day : String) : Option (String × Fields) :=
  ((entriesOf st pid).filter (fun p => strFieldIs p.2 "entryDate" day)).head?

/-- Entry document of a person by document id. -/
def entryDocOf (st : PHState) (pid id : String) : Option Fields :=
  ((entriesOf st pid).find? (fun p => p.1 == id)).map (fun p => p.2)

theorem fieldsHas_of_getField (fs : Fields) (k : String) (v : Val)
    (h : getField fs k = some v) : fieldsHas fs k = true := by
  unfold getField at h
  cases hf : fs.find? (fun p => p.1 == k) with
  | none => rw [hf] at h; cases h
  | some p =>
    have hp : (p.1 == k) = true := @List.find?_some _ (fun p => p.1 == k) p fs hf
    exact List.any_eq_true.mpr ⟨p, List.mem_of_find?_eq_some hf, hp⟩

theorem fieldsHas_merge_of_right (old p0 : Fields) (k : String)
    (h : fieldsHas p0 k = true) : fieldsHas (mergeFields old p0) k = true := by
  unfold fieldsHas at h ⊢
  unfold mergeFields
  rw [List.any_append, h, Bool.or_true]

theorem getField_merge_absorb (old p0 : Fields) (k : String) :
    getField (mergeFields old (mergeFields old p0)) k
      = getField (mergeFields old p0) k := by
  rw [getField_mergeFields old (mergeFields old p0) k]
  by_cases hm : fieldsHas (mergeFields old p0) k = true
  · rw [if_pos hm]
  · rw [if_neg hm, getField_mergeFields]
    have hp0 : fieldsHas p0 k = false := by
      cases hp : fieldsHas p0 k
      · rfl
      · exact absurd (fieldsHas_merge_of_right old p0 k hp) hm
    rw [hp0, if_neg (show ¬(false = true) by simp)]

theorem entriesOf_setEntries_same (st : PHState) (pid : String)
    (docs : List (String × Fields)) :
    entriesOf (setEntries st pid docs) pid = docs := by
  unfold entriesOf setEntries
  by_cases hany : (st.entries.any (fun p => p.1 == pid)) = true
  · rw [if_pos hany]
    dsimp only
    rw [find?_key_map_setKV st.entries pid docs, if_pos hany]
  · rw [if_neg hany]
    dsimp only
    rw [List.find?_append]
    have h1 : st.entries.find? (fun p => p.1 == pid) = none := by
      rw [List.find?_eq_none]
      intro p hp hpk
      exact hany (List.any_eq_true.mpr ⟨p, hp, hpk⟩)
    rw [h1]
    rw [show List.find? (fun p => p.1 == pid) [(pid, docs)] = some (pid, docs) by simp]
    rfl

theorem find?_map_mergeAt {β : Type} (f : β → β) :
    ∀ (l : List (String × β)) (id : String) (e : β),
      (id, e) ∈ l → (l.map Prod.fst).Nodup →
      (l.map (fun p => if p.1 == id then (id, f p.2) else p)).find? (fun p => p.1 == id)
        = some (id, f e)
  | [], id, e, hmem, _ => by cases hmem
  | p :: rest, id, e, hmem, hnd => by
    rcases List.mem_cons.mp hmem with hpe | hmem'
    · rw [List.map_cons, if_pos (by rw [← hpe]; simp)]
      have h2 : p.2 = e := by rw [← hpe]
      rw [h2]
      exact @List.find?_cons_of_pos _ (fun p => p.1 == id) (id, f e) _ (by simp)
    · have hne : p.1 ≠ id := by
        intro hpe
        have : id ∈ rest.map Prod.fst := List.mem_map_of_mem Prod.fst hmem'
        rw [List.map_cons, List.nodup_cons] at hnd
        exact hnd.1 (hpe ▸ this)
      rw [List.map_cons, if_neg (by simp [hne])]
      rw [@List.find?_cons_of_neg _ (fun p => p.1 == id) p _ (by simp [hne])]
      have hnd' : (rest.map Prod.fst).Nodup := by
        rw [List.map_cons, List.nodup_cons] at hnd
        exact hnd.2
      exact find?_map_mergeAt f rest id e hmem' hnd'

theorem log_setEntries (st : PHState) (pid : String)
    (docs : List (String × Fields)) : (setEntries st pid docs).log = st.log := by
  unfold setEntries
  by_cases hany : (st.entries.any (fun p => p.1 == pid)) = true
  · rw [if_pos hany]
  · rw [if_neg hany]

theorem log_addDocument (st : PHState) (coll : String) (data : Fields)
    (docId : Option String) :
    ((addDocument st coll data docId).1).log
      = st.log ++ [WriteOp.addDoc coll data docId] := by
  unfold addDocument
  cases docId with
  | none =>
    dsimp only
    by_cases h1 : (coll == "people") = true
    · rw [if_pos h1]
    · rw [if_neg h1]
      by_cases h2 : (coll == "peopleIds") = true
      · rw [if_pos h2]
      · rw [if_neg h2]
  | some id =>
    dsimp only
    by_cases h0 : (jsTrim id != "") = true
    · rw [if_pos h0]
      by_cases h1 : (coll == "people") = true
      · rw [if_pos h1]
      · rw [if_neg h1]
        by_cases h2 : (coll == "peopleIds") = true
        · rw [if_pos h2]
        · rw [if_neg h2]
    · rw [if_neg h0]
      by_cases h1 : (coll == "people") = true
      · rw [if_pos h1]
      · rw [if_neg h1]
        by_cases h2 : (coll == "peopleIds") = true
        · rw [if_pos h2]
        · rw [if_neg h2]

theorem log_addSubcollectionDocument (st : PHState) (coll docId sub : String)
    (data : Fields) (subId : Option String) :
    ((addSubcollectionDocument st coll docId sub data subId).1).log
      = st.log ++ [WriteOp.addSubDoc coll docId sub data subId] := by
  unfold addSubcollectionDocument
  cases subId with
  | none =>
    dsimp only
    rw [log_setEntries]
  | some id =>
    dsimp only
    by_cases h0 : (jsTrim id != "") = true
    · rw [if_pos h0]
      dsimp only
      rw [log_setEntries]
    · rw [if_neg h0]
      dsimp only
      rw [log_setEntries]

/-- A stored person document of the structured people collection
(`users/{userId}/people`). -/
structure PersonDoc where
  displayName : String
  normalizedName : String
  memo : Option String
  createdAt : Nat
  updatedAt : Nat
deriving DecidableEq, Repr

/-- The structured people collection with a fresh-id counter.  `docs` is kept
in `createdAt` order, which is the order the `orderBy('createdAt')` query of
`findPersonByName` returns. -/
structure PeopleStore where
  docs : List (String × PersonDoc)
  nextId : Nat
deriving DecidableEq, Repr

/-- Source `createPerson` (firestorePeople): store the trimmed displayName,
normalizedName and timestamps under a fresh id, allowing an optional memo. -/
def createPerson (s : PeopleStore) (displayName : String) (memoExtra : Option String)
    (nowT : Nat) : String × PeopleStore :=
  ("p" ++ toString s.nextId,
    { docs := s.docs ++ [("p" ++ toString s.nextId,
        { displayName := jsTrim displayName,
          normalizedName := normalizePersonName displayName,
          memo := memoExtra, createdAt := nowT, updatedAt := nowT })],
      nextId := s.nextId + 1 })

/-- Source `findPersonByName` (firestorePeople): the first document whose
normalizedName equals the normalization of the input (createdAt order,
limit 1). -/
def findPersonByName (s : PeopleStore) (inputName : String) :
    Option (String × PersonDoc) :=
  s.docs.find? (fun p => p.2.normalizedName == normalizePersonName inputName)

/-- The update `upsertPersonByName` applies to an existing person document:
refresh displayName/normalizedName/updatedAt and overwrite the memo when the
extra payload carries one (`updateDoc` merges fields into the document). -/
def updatedPersonDoc (existing : PersonDoc) (displayName : String)
    (memoExtra : Option String) (nowT : Nat) : PersonDoc :=
  { existing with
    displayName := jsTrim displayName,
    normalizedName := normalizePersonName (jsTrim displayName),
    updatedAt := nowT,
    memo := match memoExtra with | some m => some m | none => existing.memo }

/-- Firestore `updateDoc` on the people collection: replace the document
stored under the (unique) id. -/
def updateDocById (docs : List (String × PersonDoc)) (id : String) (d : PersonDoc) :
    List (String × PersonDoc) :=
  docs.map (fun p => if p.1 == id then (id, d) else p)

/-- Source `upsertPersonByName` (firestorePeople): update the person found
by normalized name, else create one from the trimmed display name. -/
def upsertPersonByName (s : PeopleStore) (displayName : String)
    (memoExtra : Option String) (nowT : Nat) : String × PeopleStore :=
  match findPersonByName s displayName with
  | some (id, existing) =>
    (id, { s with
      docs := updateDocById s.docs id (updatedPersonDoc existing displayName memoExtra nowT) })
  | none => createPerson s (jsTrim displayName) memoExtra nowT

theorem find?_updateDocById (pred : PersonDoc → Bool) :
    ∀ (l : List (String × PersonDoc)) (id : String) (e d : PersonDoc),
      l.find? (fun p => pred p.2) = some (id, e) →
      (l.map Prod.fst).Nodup →
      pred d = true →
      (updateDocById l id d).find? (fun p => pred p.2) = some (id, d)
  | [], id, e, d, hf, _, _ => by cases hf
  | p :: rest, id, e, d, hf, hnd, hd => by
    by_cases hp : pred p.2 = true
    · have hpe : p = (id, e) := by
        have heq := @List.find?_cons_of_pos _ (fun p => pred p.2) p rest hp
        rw [heq] at hf
        exact Option.some.inj hf
      have hid : p.1 = id := by rw [hpe]
      unfold updateDocById
      rw [List.map_cons, if_pos (beq_iff_eq.mpr hid)]
      exact @List.find?_cons_of_pos _ (fun p => pred p.2) (id, d) _ hd
    · have hf' : rest.find? (fun p => pred p.2) = some (id, e) := by
        rw [@List.find?_cons_of_neg _ (fun p => pred p.2) p rest hp] at hf
        exact hf
      have hne : p.1 ≠ id := by
        intro hpe
        have hmem : (id, e) ∈ rest := List.mem_of_find?_eq_some hf'
        have : id ∈ rest.map Prod.fst := List.mem_map_of_mem Prod.fst hmem
        rw [List.map_cons, List.nodup_cons] at hnd
        exact hnd.1 (hpe ▸ this)
      unfold updateDocById
      rw [List.map_cons, if_neg (by simp [hne])]
      rw [@List.find?_cons_of_neg _ (fun p => pred p.2) p _ hp]
      have hnd' : (rest.map Prod.fst).Nodup := by
        rw [List.map_cons, List.nodup_cons] at hnd
        exact hnd.2
      exact find?_updateDocById pred rest id e d hf' hnd' hd

/-- The facts payload the spec describes: drop facts empty after trimming and
assign each remaining fact an orderIndex equal to its position in the
resulting (filtered) sequence.  Stated from the spec wording, for comparison
with the source `buildFactsPayload`. -/
def specFactsPayload (facts : List String) : List (Nat × String) :=
  ((facts.map jsTrim).filter (fun t => t != "")).enum

theorem buildFactsPayloadAux_cons_pos (i : Nat) (t : String) (rest : List String)
    (h : (jsTrim t != "") = true) :
    buildFactsPayloadAux i (t :: rest)
      = (i, jsTrim t) :: buildFactsPayloadAux (i + 1) rest := by
  unfold buildFactsPayloadAux
  rw [if_pos h]
  cases rest <;> rfl

theorem buildFactsPayloadAux_cons_neg (i : Nat) (t : String) (rest : List String)
    (h : ¬(jsTrim t != "") = true) :
    buildFactsPayloadAux i (t :: rest) = buildFactsPayloadAux (i + 1) rest := by
  unfold buildFactsPayloadAux
  rw [if_neg h]
  cases rest <;> rfl

theorem buildFactsPayloadAux_append (x : List String) :
    ∀ (i : Nat) (y : List String),
      buildFactsPayloadAux i (x ++ y)
        = buildFactsPayloadAux i x ++ buildFactsPayloadAux (i + x.length) y := by
  induction x with
  | nil =>
    intro i y
    simp [buildFactsPayloadAux]
  | cons t rest ih =>
    intro i y
    have harith : i + 1 + rest.length = i + (t :: rest).length := by
      simp
      omega
    by_cases h : (jsTrim t != "") = true
    · rw [List.cons_append, buildFactsPayloadAux_cons_pos _ _ _ h,
        buildFactsPayloadAux_cons_pos _ _ _ h, ih (i + 1) y, List.cons_append, harith]
    · rw [List.cons_append, buildFactsPayloadAux_cons_neg _ _ _ h,
        buildFactsPayloadAux_cons_neg _ _ _ h, ih (i + 1) y, harith]

theorem buildFactsPayloadAux_all_blank :
    ∀ (i : Nat) (b : List String), (∀ t ∈ b, jsTrim t = "") →
      buildFactsPayloadAux i b = []
  | _, [], _ => rfl
  | i, t :: rest, h => by
    have ht : jsTrim t = "" := h t (List.mem_cons_self t rest)
    unfold buildFactsPayloadAux
    rw [if_neg (by simp [ht])]
    exact buildFactsPayloadAux_all_blank (i + 1) rest
      (fun x hx => h x (List.mem_cons_of_mem t hx))

theorem buildFactsPayloadAux_all_nonblank :
    ∀ (i : Nat) (a : List String), (∀ t ∈ a, jsTrim t ≠ "") →
      buildFactsPayloadAux i a = List.enumFrom i (a.map jsTrim)
  | _, [], _ => rfl
  | i, t :: rest, h => by
    have ht : jsTrim t ≠ "" := h t (List.mem_cons_self t rest)
    unfold buildFactsPayloadAux
    rw [if_pos (bne_iff_ne.mpr ht)]
    rw [List.map_cons, List.enumFrom_cons]
    rw [buildFactsPayloadAux_all_nonblank (i + 1) rest
      (fun x hx => h x (List.mem_cons_of_mem t hx))]

theorem buildFactsPayload_eq_spec_of_split (a b : List String)
    (ha : ∀ t ∈ a, jsTrim t ≠ "") (hb : ∀ t ∈ b, jsTrim t = "") :
    buildFactsPayload (a ++ b) = specFactsPayload (a ++ b) := by
  unfold buildFactsPayload specFactsPayload
  rw [buildFactsPayloadAux_append a 0 b, buildFactsPayloadAux_all_blank (0 + a.length) b hb,
    buildFactsPayloadAux_all_nonblank 0 a ha, List.append_nil]
  rw [List.map_append, List.filter_append]
  have hfa : (a.map jsTrim).filter (fun t => t != "") = a.map jsTrim := by
    rw [List.filter_eq_self]
    intro t ht
    obtain ⟨x, hx, hxt⟩ := List.mem_map.mp ht
    rw [← hxt]
    exact bne_iff_ne.mpr (ha x hx)
  have hfb : (b.map jsTrim).filter (fun t => t != "") = [] := by
    rw [List.filter_eq_nil_iff]
    intro t ht
    obtain ⟨x, hx, hxt⟩ := List.mem_map.mp ht
    rw [← hxt]
    simp [hb x hx]
  rw [hfa, hfb, List.append_nil]
  rfl

/-- **C7** (corrected).  The source `buildFactsPayload` assigns each kept
fact the orderIndex of its position in the *original* sequence, not the
filtered one; the two coincide exactly when the blank facts all sit at the
end of the list — the shape `normalizeFactsForState` guarantees — in which
case the payload equals the spec's description (positions in the filtered
sequence, starting at 0 with no gaps). -/
theorem claim_c7_amended :
    (∀ (a b : List String), (∀ t ∈ a, jsTrim t ≠ "") → (∀ t ∈ b, jsTrim t = "") →
      buildFactsPayload (a ++ b) = specFactsPayload (a ++ b)) ∧
    (∀ f : List String,
      buildFactsPayload (normalizeFactsForState f)
        = specFactsPayload (normalizeFactsForState f)) := by
  refine ⟨buildFactsPayload_eq_spec_of_split, ?_⟩
  intro f
  obtain ⟨hne, hlast, hint⟩ := normalizeFactsForState_trailing f
  have hsplit := List.dropLast_append_getLast hne
  rw [← hsplit]
  refine buildFactsPayload_eq_spec_of_split _ _ hint ?_
  intro t ht
  have : t = (normalizeFactsForState f).getLast hne := by simpa using ht
  rw [this]
  exact hlast _ (List.getLast?_eq_getLast _ hne)

/-- **C7** counterexample: on the fact list `["", "a"]` the code's payload
carries orderIndex 1 (the position in the original sequence), while the
claim demands orderIndex 0 (the position in the filtered sequence). -/
theorem claim_c7_counterexample :
    buildFactsPayload ["", "a"] = [(1, "a")] ∧
    specFactsPayload ["", "a"] = [(0, "a")] ∧
    buildFactsPayload ["", "a"] ≠ specFactsPayload ["", "a"] := by
  refine ⟨rfl, rfl, ?_⟩
  intro h
  rw [show buildFactsPayload ["", "a"] = [(1, "a")] from rfl,
    show specFactsPayload ["", "a"] = [(0, "a")] from rfl] at h
  cases h

/-- **C7** witness: the amended statement applied to a concrete split list:
`["a", "b", ""]` has its blanks trailing, and the payload equals the spec's
filtered-position payload there. -/
theorem claim_c7_witness :
    buildFactsPayload (["a", "b"] ++ [""]) = specFactsPayload (["a", "b"] ++ [""]) :=
  claim_c7_amended.1 ["a", "b"] [""] (by decide) (by decide)

/-- **C5**.  Fact-slot normalization yields a non-empty sequence ending in
exactly one blank fact with no blank interior facts; the remove-fact update
drops exactly the indexed entry when more than one fact is present, collapses
to a single blank slot otherwise, and never yields an empty sequence. -/
theorem claim_c5_fact_slots (facts : List String) (factIndex : Nat) :
    (normalizeFactsForState facts ≠ [] ∧
      (∀ t, (normalizeFactsForState facts).getLast? = some t → jsTrim t = "") ∧
      (∀ t ∈ (normalizeFactsForState facts).dropLast, jsTrim t ≠ "")) ∧
    (1 < facts.length → removeFactUpdate facts factIndex = facts.eraseIdx factIndex) ∧
    (facts.length ≤ 1 → removeFactUpdate facts factIndex = [""]) ∧
    removeFactUpdate facts factIndex ≠ [] := by
  refine ⟨normalizeFactsForState_trailing facts, ?_, ?_, ?_⟩
  · intro hl
    unfold removeFactUpdate
    rw [if_neg (by omega)]
    rw [filterOutIndex_eq_eraseIdx factIndex 0 facts (Nat.zero_le _), Nat.sub_zero]
  · intro hl
    unfold removeFactUpdate
    rw [if_pos hl]
  · unfold removeFactUpdate
    by_cases hl : facts.length ≤ 1
    · rw [if_pos hl]
      simp
    · rw [if_neg hl]
      rw [filterOutIndex_eq_eraseIdx factIndex 0 facts (Nat.zero_le _), Nat.sub_zero]
      intro hnil
      have hlen := congrArg List.length hnil
      rw [List.length_eraseIdx] at hlen
      simp at hlen
      split at hlen <;> omega

/-- **C5** witness: removing index 1 from a three-entry fact list drops
exactly that entry. -/
theorem claim_c5_witness :
    removeFactUpdate ["a", "b", ""] 1 = (["a", "b", ""] : List String).eraseIdx 1 ∧
    normalizeFactsForState ["a", "b", ""] ≠ [] :=
  ⟨(claim_c5_fact_slots ["a", "b", ""] 1).2.1 (by decide),
    (claim_c5_fact_slots ["a", "b", ""] 1).1.1⟩

/-- A draft card holding only a name: blank memo/place, one blank fact slot. -/
def cardNameOnly (name : String) : Card :=
  { clientId := "", encounterId := none, personId := none, personName := name,
    memo := "", placeLabel := "", facts := [""], isNew := true, needsSave := false,
    date := "" }

/-- The card `cardNameOnly name` after a non-blank fact was typed. -/
def cardNameFact (name fact : String) : Card :=
  { clientId := "", encounterId := none, personId := none, personName := name,
    memo := "", placeLabel := "", facts := [fact, ""], isNew := true,
    needsSave := false, date := "" }

/-- **C6**.  The persist-worthy predicate holds exactly when the card has a
non-empty display identity (trimmed name or memo non-empty) and at least one
non-blank fact or a non-blank place; a card with only a name is not
persist-worthy, and adding a non-blank fact to it makes it persist-worthy. -/
theorem claim_c6_persist_worthy (c : Card) (name fact : String) :
    (shouldPersistCard c = true ↔
      ((jsTrim c.personName ≠ "" ∨ jsTrim c.memo ≠ "") ∧
        (buildFactsPayload c.facts ≠ [] ∨ jsTrim c.placeLabel ≠ ""))) ∧
    (jsTrim name ≠ "" → shouldPersistCard (cardNameOnly name) = false) ∧
    (jsTrim name ≠ "" → jsTrim fact ≠ "" →
      shouldPersistCard (cardNameFact name fact) = true) := by
  refine ⟨shouldPersistCard_iff c, ?_, ?_⟩
  · intro _
    cases hsp : shouldPersistCard (cardNameOnly name) with
    | false => rfl
    | true =>
      exfalso
      have hx := (shouldPersistCard_iff _).mp hsp
      rcases hx.2 with h2 | h2
      · exact h2 rfl
      · exact h2 rfl
  · intro hn hf
    refine (shouldPersistCard_iff _).mpr ⟨Or.inl hn, Or.inl ?_⟩
    have hcons : buildFactsPayload [fact, ""]
        = (0, jsTrim fact) :: buildFactsPayloadAux 1 [""] :=
      buildFactsPayloadAux_cons_pos 0 fact [""] (bne_iff_ne.mpr hf)
    rw [show (cardNameFact name fact).facts = [fact, ""] from rfl, hcons]
    simp

/-- **C6** witness: a card with only the name "Ana G" triggers no write;
adding the fact "Loves hiking" makes it persist-worthy. -/
theorem claim_c6_witness :
    shouldPersistCard (cardNameOnly "Ana G") = false ∧
    shouldPersistCard (cardNameFact "Ana G" "Loves hiking") = true :=
  ⟨(claim_c6_persist_worthy (cardNameOnly "Ana G") "Ana G" "Loves hiking").2.1
      (by decide),
    (claim_c6_persist_worthy (cardNameOnly "Ana G") "Ana G" "Loves hiking").2.2
      (by decide) (by decide)⟩

/-- The counterexample card for C4: no meaningful text, no encounter id, but
a linked person id. -/
def cardOnlyPersonId : Card :=
  { clientId := "k", encounterId := none, personId := some "p", personName := "",
    memo := "", placeLabel := "", facts := [], isNew := false, needsSave := false,
    date := "" }

/-- **C4** counterexample: on a card whose only content is a linked person
id, the recomputation keeps the card (it is not blank — blankness also
requires no person id) but appends no blank card, because the append
condition checks only meaningful content and the encounter id.  The
resulting list contains no blank card at all, refuting "exactly one trailing
blank card" for this input. -/
theorem claim_c4_counterexample :
    (ensureTrailingBlankCard (fun _ => "g") "now" [cardOnlyPersonId]).length = 1 ∧
    ((ensureTrailingBlankCard (fun _ => "g") "now" [cardOnlyPersonId]).filter
      (fun c => isBlankCard c)).length = 0 := by
  constructor
  · rfl
  · rfl

/-- **C4** (corrected).  For every input list in which no card carries a
person id without meaningful content or an encounter id — the only card
shape the app ever produces — the recomputed list is non-empty, its last
card is blank, and no interior card is blank: exactly one trailing blank
card and zero blank interior cards. -/
theorem claim_c4_amended (gen : Nat → String) (nowStr : String) (cards : List Card)
    (hnp : ∀ c ∈ cards, c.personId.isSome = true →
      (hasMeaningfulContent c || c.encounterId.isSome) = true) :
    ensureTrailingBlankCard gen nowStr cards ≠ [] ∧
    (∀ c, (ensureTrailingBlankCard gen nowStr cards).getLast? = some c →
      isBlankCard c = true) ∧
    ((ensureTrailingBlankCard gen nowStr cards).dropLast).all
      (fun c => !isBlankCard c) = true :=
  ensureTrailingBlankCard_invariant gen nowStr cards hnp

/-- **C4** witness: the amended invariant applied to a one-card list holding
a meaningful card. -/
theorem claim_c4_witness :
    ensureTrailingBlankCard (fun _ => "g") "now"
      [{ clientId := "k1", encounterId := none, personId := none,
         personName := "Ana G", memo := "", placeLabel := "",
         facts := ["Loves hiking", ""], isNew := true, needsSave := true,
         date := "" }] ≠ [] :=
  (claim_c4_amended (fun _ => "g") "now"
    [{ clientId := "k1", encounterId := none, personId := none,
       personName := "Ana G", memo := "", placeLabel := "",
       facts := ["Loves hiking", ""], isNew := true, needsSave := true,
       date := "" }] (by intro c hc hp; simp at hc; rw [hc] at hp; cases hp)).1

/-- A concrete edit snapshot of the card under key `k1`, carrying one fact. -/
def cardEdit (fact : String) : Card :=
  { clientId := "k1", encounterId := none, personId := none, personName := "Ana G",
    memo := "", placeLabel := "", facts := [fact, ""], isNew := true,
    needsSave := true, date := "" }

/-- A scheduler with no pending timers. -/
def schedEmpty : SchedulerState := ⟨[], 0⟩

/-- **C1**.  The debounced scheduler: arming for a key always cancels the
existing timer for that key; a snapshot failing the persist-worthy predicate
cancels without arming; and after three persist-worthy edits to the same key
inside one debounce window (no timer fires in between), exactly one timer
for that key survives, and firing it produces exactly one persistence call
whose payload is computed from the current card state for that key. -/
theorem claim_c1_debounced_scheduler :
    (∀ (s : SchedulerState) (snap : Card), shouldPersistCard snap = false →
      (queueSave s snap).timers.filter (fun p => p.1 == snap.clientId) = []) ∧
    (∀ (s : SchedulerState) (snap : Card), shouldPersistCard snap = true →
      (queueSave s snap).timers.filter (fun p => p.1 == snap.clientId)
        = [(snap.clientId, s.nextTimerId)]) ∧
    (∀ (s : SchedulerState) (snap : Card) (tid : Nat), schedTimerIdsFresh s →
      (snap.clientId, tid) ∈ s.timers →
      (snap.clientId, tid) ∉ (queueSave s snap).timers) ∧
    (∀ (s0 : SchedulerState) (e1 e2 e3 : Card) (k : String) (store : List Card),
      e1.clientId = k → e2.clientId = k → e3.clientId = k →
      shouldPersistCard e1 = true → shouldPersistCard e2 = true →
      shouldPersistCard e3 = true →
      store.find? (fun c => c.clientId == k) = some e3 →
      (runPendingTimers store (queueSave (queueSave (queueSave s0 e1) e2) e3)).filter
          (fun call => call.key == k) = [mkPersistCall e3]) := by
  refine ⟨queueSave_filter_key_not_worthy, queueSave_filter_key_worthy,
    queueSave_cancels_existing, ?_⟩
  intro s0 e1 e2 e3 k store h1 h2 h3 w1 w2 w3 hfind
  have hs3 := queueSave_filter_key_worthy (queueSave (queueSave s0 e1) e2) e3 w3
  rw [h3] at hs3
  exact runPendingTimers_single store _ k e3 _ hs3 hfind w3

/-- **C1** witness: three concrete edits to key `k1` in one window, then the
surviving timer fires against the current state and yields one call carrying
the last edit's payload. -/
theorem claim_c1_witness :
    (runPendingTimers [cardEdit "c"]
        (queueSave (queueSave (queueSave schedEmpty (cardEdit "a")) (cardEdit "b"))
          (cardEdit "c"))).filter (fun call => call.key == "k1")
      = [mkPersistCall (cardEdit "c")] :=
  claim_c1_debounced_scheduler.2.2.2 schedEmpty (cardEdit "a") (cardEdit "b")
    (cardEdit "c") "k1" [cardEdit "c"] rfl rfl rfl (by decide) (by decide)
    (by decide) (by decide)

/-- **C9**.  A persistence round-trip that fails at the remote boundary is
caught per card: the key's save status becomes `error`, other keys' statuses
are untouched, the card list (the local draft) is unchanged, no timer is
re-armed for the key, other keys' timers are untouched, and a later
persist-worthy edit to the same key re-arms the scheduler normally. -/
theorem claim_c9_failure_handling (gen : Nat → String) (nowStr : String)
    (st : AppState) (key : String) (latest : Card)
    (hfind : st.cards.find? (fun c => c.clientId == key) = some latest)
    (hw : shouldPersistCard latest = true) :
    (persistCard gen nowStr st key none).cards = st.cards ∧
    statusOf (persistCard gen nowStr st key none).saveStatus key
      = some SaveStatus.error ∧
    (∀ k', k' ≠ key →
      statusOf (persistCard gen nowStr st key none).saveStatus k'
        = statusOf st.saveStatus k') ∧
    (persistCard gen nowStr st key none).sched.timers.filter
      (fun p => p.1 == key) = [] ∧
    (∀ k', k' ≠ key →
      (persistCard gen nowStr st key none).sched.timers.filter (fun p => p.1 == k')
        = st.sched.timers.filter (fun p => p.1 == k')) ∧
    (∀ snap : Card, snap.clientId = key → shouldPersistCard snap = true →
      (queueSave (persistCard gen nowStr st key none).sched snap).timers.filter
          (fun p => p.1 == key)
        = [(key, (persistCard gen nowStr st key none).sched.nextTimerId)]) := by
  have hps : persistCard gen nowStr st key none
      = { st with
          saveStatus := statusSet (statusSet st.saveStatus key .saving) key .error,
          sched := { st.sched with timers := timersDelete st.sched.timers key } } := by
    unfold persistCard
    rw [hfind]
    dsimp only
    rw [if_pos hw]
  rw [hps]
  refine ⟨rfl, ?_, ?_, ?_, ?_, ?_⟩
  · exact statusOf_statusSet_same _ key .error
  · intro k' hk
    rw [show ({ st with
        saveStatus := statusSet (statusSet st.saveStatus key .saving) key .error,
        sched := { st.sched with timers := timersDelete st.sched.timers key } } :
          AppState).saveStatus
      = statusSet (statusSet st.saveStatus key .saving) key .error from rfl]
    rw [statusOf_statusSet_other _ key k' _ hk, statusOf_statusSet_other _ key k' _ hk]
  · exact filter_key_timersDelete st.sched.timers key
  · intro k' hk
    exact filter_ne_key_timersDelete st.sched.timers key k' hk
  · intro snap hsk hsw
    have h := queueSave_filter_key_worthy
      { st.sched with timers := timersDelete st.sched.timers key } snap hsw
    rw [hsk] at h
    exact h

/-- The app state used by the failure-handling witness: one card, no status,
one armed timer for its key. -/
def appStateW : AppState :=
  { cards := [cardEdit "c"], saveStatus := [], sched := ⟨[("k1", 0)], 1⟩ }

/-- **C9** witness: a failed round-trip on the concrete state leaves the
drafts unchanged and records status `error` for the key. -/
theorem claim_c9_witness :
    (persistCard (fun _ => "g") "now" appStateW "k1" none).cards = appStateW.cards ∧
    statusOf (persistCard (fun _ => "g") "now" appStateW "k1" none).saveStatus "k1"
      = some SaveStatus.error :=
  ⟨(claim_c9_failure_handling (fun _ => "g") "now" appStateW "k1" (cardEdit "c")
      (by decide) (by decide)).1,
    (claim_c9_failure_handling (fun _ => "g") "now" appStateW "k1" (cardEdit "c")
      (by decide) (by decide)).2.1⟩

/-- The empty structured people store. -/
def peopleEmpty : PeopleStore := ⟨[], 0⟩

set_option maxHeartbeats 2000000 in
/-- **C3**.  Upserting two raw display names whose normalizations agree
within the same owner scope resolves to the same person id — the second
upsert finds (and updates) the person the first one resolved, never creating
a duplicate: the store's document count is unchanged by the second call. -/
theorem claim_c3_person_dedup (s : PeopleStore) (a b : String)
    (ma mb : Option String) (t1 t2 : Nat)
    (hids : (s.docs.map Prod.fst).Nodup)
    (hn : normalizePersonName a = normalizePersonName b) :
    (upsertPersonByName (upsertPersonByName s a ma t1).2 b mb t2).1
        = (upsertPersonByName s a ma t1).1 ∧
    (upsertPersonByName (upsertPersonByName s a ma t1).2 b mb t2).2.docs.length
        = (upsertPersonByName s a ma t1).2.docs.length := by
  have hlenupd : ∀ (docs : List (String × PersonDoc)) (id : String) (d : PersonDoc),
      (updateDocById docs id d).length = docs.length := by
    intro docs id d
    unfold updateDocById
    exact List.length_map _ _
  have hpred : (normalizePersonName (jsTrim a) == normalizePersonName b) = true := by
    rw [normalizePersonName_jsTrim, hn]
    simp
  cases hf : findPersonByName s a with
  | some pe =>
    obtain ⟨id, e⟩ := pe
    have h1 : upsertPersonByName s a ma t1
        = (id, { s with
            docs := updateDocById s.docs id (updatedPersonDoc e a ma t1) }) := by
      unfold upsertPersonByName
      rw [hf]
    have hfb : findPersonByName
        { s with docs := updateDocById s.docs id (updatedPersonDoc e a ma t1) } b
        = some (id, updatedPersonDoc e a ma t1) := by
      unfold findPersonByName
      dsimp only
      have hfa : s.docs.find?
          (fun p => p.2.normalizedName == normalizePersonName b) = some (id, e) := by
        have heqf : (fun p : String × PersonDoc =>
            p.2.normalizedName == normalizePersonName b)
            = (fun p : String × PersonDoc =>
              p.2.normalizedName == normalizePersonName a) := by rw [hn]
        rw [heqf]
        unfold findPersonByName at hf
        exact hf
      exact find?_updateDocById
        (fun dd => dd.normalizedName == normalizePersonName b) s.docs id e
        (updatedPersonDoc e a ma t1) hfa hids hpred
    constructor
    · rw [h1]
      unfold upsertPersonByName
      rw [hfb]
    · rw [h1]
      unfold upsertPersonByName
      rw [hfb]
      dsimp only
      rw [hlenupd]
  | none =>
    have h1 : upsertPersonByName s a ma t1 = createPerson s (jsTrim a) ma t1 := by
      unfold upsertPersonByName
      rw [hf]
    have hfa : s.docs.find?
        (fun p => p.2.normalizedName == normalizePersonName b) = none := by
      have heqf : (fun p : String × PersonDoc =>
          p.2.normalizedName == normalizePersonName b)
          = (fun p : String × PersonDoc =>
            p.2.normalizedName == normalizePersonName a) := by rw [hn]
      rw [heqf]
      unfold findPersonByName at hf
      exact hf
    obtain ⟨d, hfb⟩ : ∃ d, findPersonByName (createPerson s (jsTrim a) ma t1).2 b
        = some ("p" ++ toString s.nextId, d) := by
      refine ⟨⟨jsTrim (jsTrim a), normalizePersonName (jsTrim a), ma, t1, t1⟩, ?_⟩
      unfold findPersonByName createPerson
      dsimp only
      rw [List.find?_append, hfa, Option.none_or]
      exact @List.find?_cons_of_pos (String × PersonDoc)
        (fun p => p.2.normalizedName == normalizePersonName b)
        ("p" ++ toString s.nextId,
          ⟨jsTrim (jsTrim a), normalizePersonName (jsTrim a), ma, t1, t1⟩) []
        hpred
    constructor
    · rw [h1]
      unfold upsertPersonByName
      rw [hfb]
      rfl
    · rw [h1]
      unfold upsertPersonByName
      rw [hfb]
      dsimp only
      rw [hlenupd]

/-- **C3** witness: "José  Álvarez" and "jose alvarez" normalize identically
and resolve to the same person id starting from the empty store. -/
theorem claim_c3_witness :
    (upsertPersonByName (upsertPersonByName peopleEmpty "José  Álvarez" none 1).2
        "jose alvarez" none 2).1
      = (upsertPersonByName peopleEmpty "José  Álvarez" none 1).1 :=
  (claim_c3_person_dedup peopleEmpty "José  Álvarez" "jose alvarez" none none 1 2
    (by decide) (by decide)).1

/-- The empty legacy store. -/
def phEmpty : PHState := ⟨[], [], [], 0, []⟩

/-- **C8**: under the alternate identity scheme, a trimmed name with a last
name yields the full name as identifier; without a last name a non-empty
trimmed memo yields `name-memo`; with neither, `buildIdentifier` fails and
`saveEntry` performs no store write at all (the state, including the write
log, is returned unchanged). -/
theorem claim_c8_identifier_scheme :
    (∀ name memo : String,
      (hasLastName (jsTrim name) = true →
        buildIdentifier (jsTrim name) (jsTrim memo) = some (jsTrim name)) ∧
      (hasLastName (jsTrim name) = false → jsTrim memo ≠ "" →
        buildIdentifier (jsTrim name) (jsTrim memo)
          = some (jsTrim name ++ "-" ++ jsTrim memo)) ∧
      (hasLastName (jsTrim name) = false → jsTrim memo = "" →
        buildIdentifier (jsTrim name) (jsTrim memo) = none)) ∧
    (∀ (st : PHState) (data : Fields) (nowStr : String),
      hasLastName (normalizePersonData data).1 = false →
      (normalizePersonData data).2 = "" →
      saveEntry st data nowStr = (st, none)) := by
  constructor
  · intro name memo
    refine ⟨?_, ?_, ?_⟩
    · intro h
      have hne : ((jsTrim name) == "") = false := by
        cases hq : ((jsTrim name) == "")
        · rfl
        · exfalso
          rw [beq_iff_eq.mp hq] at h
          exact absurd h (by decide)
      unfold buildIdentifier requireUniqueIdentifier
      rw [h, hne]
      simp
    · intro h hm
      have hmf : ((jsTrim memo) == "") = false := beq_eq_false_iff_ne.mpr hm
      unfold buildIdentifier requireUniqueIdentifier
      rw [h, hmf]
      simp
    · intro h hm
      unfold buildIdentifier requireUniqueIdentifier
      rw [h, hm]
      simp
  · intro st data nowStr h1 h2
    unfold saveEntry
    rw [show requireUniqueIdentifier (normalizePersonData data).1
        (normalizePersonData data).2 = false by
      unfold requireUniqueIdentifier
      rw [h1, h2]
      simp]
    rfl

/-- **C8** witness: "Ada Lovelace" has a last name and is its own
identifier; "Cher" with memo "Singer" yields "Cher-Singer"; a bare "Prince"
with no memo leaves the empty store untouched and returns no id. -/
theorem claim_c8_witness :
    buildIdentifier (jsTrim "Ada Lovelace") (jsTrim "") = some (jsTrim "Ada Lovelace") ∧
    buildIdentifier (jsTrim "Cher") (jsTrim "Singer")
      = some (jsTrim "Cher" ++ "-" ++ jsTrim "Singer") ∧
    saveEntry phEmpty [("name", Val.s "Prince")] "2024-01-02T03:04:05.000Z"
      = (phEmpty, none) :=
  ⟨(claim_c8_identifier_scheme.1 "Ada Lovelace" "").1 (by decide),
   (claim_c8_identifier_scheme.1 "Cher" "Singer").2.1 (by decide) (by decide),
   claim_c8_identifier_scheme.2 phEmpty [("name", Val.s "Prince")]
     "2024-01-02T03:04:05.000Z" (by decide) (by decide)⟩

/-- A write whose payload carries `memo` as the empty string (vacuous for
`addDocument` calls outside the `people` collection, whose payloads carry no
memo field at all). -/
def writeMemoBlankOp : WriteOp → Prop
  | WriteOp.addDoc coll data _ => coll = "people" → getField data "memo" = some (Val.s "")
  | WriteOp.addSubDoc _ _ _ data _ => getField data "memo" = some (Val.s "")

/-- A write of a person document (`addDocument` on `people`). -/
def isPeopleAddOp : WriteOp → Bool
  | WriteOp.addDoc coll _ _ => coll == "people"
  | _ => false

/-- A write of an entry (`addSubcollectionDocument`). -/
def isSubAddOp : WriteOp → Bool
  | WriteOp.addSubDoc _ _ _ _ _ => true
  | _ => false

theorem savePersonId_log (st : PHState) (pd : Fields) (id : String) :
    ∃ mids, (savePersonId st pd id).log = st.log ++ mids ∧
      ∀ op ∈ mids, isPeopleAddOp op = false ∧ isSubAddOp op = false ∧
        writeMemoBlankOp op := by
  cases hb : buildIdentifier (normalizePersonData pd).1 (normalizePersonData pd).2 with
  | none =>
    refine ⟨[], ?_, fun op hop => absurd hop (List.not_mem_nil op)⟩
    rw [show savePersonId st pd id = st from by unfold savePersonId; rw [hb]]
    simp
  | some ident =>
    refine ⟨[WriteOp.addDoc "peopleIds"
        [("identifier", Val.s ident), ("id", Val.s id)] none], ?_, ?_⟩
    · rw [show savePersonId st pd id
          = (addDocument st "peopleIds"
              [("identifier", Val.s ident), ("id", Val.s id)] none).1 from by
        unfold savePersonId; rw [hb]]
      exact log_addDocument st "peopleIds" _ none
    · intro op hop
      have hope := List.mem_singleton.mp hop
      subst hope
      refine ⟨rfl, rfl, ?_⟩
      intro hc
      exact absurd hc (by decide)

theorem writeEntry_log_memo (st2 : PHState) (pid : String) (ed : Fields)
    (nowStr : String)
    (hpay : getField (entryPayloadOf ed nowStr) "memo" = some (Val.s "")) :
    ∃ subData subId, (writeEntryForDate st2 pid ed nowStr).1.log
        = st2.log ++ [WriteOp.addSubDoc "people" pid "entries" subData (some subId)] ∧
      getField subData "memo" = some (Val.s "") := by
  cases hm : ((entriesOf st2 pid).filter
      (fun p => strFieldIs p.2 "entryDate" (entryDayOf ed nowStr))) with
  | nil =>
    refine ⟨entryPayloadOf ed nowStr, entryDayOf ed nowStr, ?_, hpay⟩
    rw [show (writeEntryForDate st2 pid ed nowStr).1
        = (addSubcollectionDocument st2 "people" pid "entries"
            (entryPayloadOf ed nowStr) (some (entryDayOf ed nowStr))).1 from by
      unfold writeEntryForDate; rw [hm]]
    exact log_addSubcollectionDocument st2 "people" pid "entries" _ _
  | cons d tl =>
    refine ⟨mergeFields d.2 (entryPayloadOf ed nowStr), d.1, ?_, ?_⟩
    · rw [show (writeEntryForDate st2 pid ed nowStr).1
          = (addSubcollectionDocument st2 "people" pid "entries"
              (mergeFields d.2 (entryPayloadOf ed nowStr)) (some d.1)).1 from by
        unfold writeEntryForDate; rw [hm]]
      exact log_addSubcollectionDocument st2 "people" pid "entries" _ _
    · have hhas := fieldsHas_of_getField (entryPayloadOf ed nowStr) "memo" _ hpay
      rw [getField_mergeFields, hhas, if_pos rfl]
      exact hpay

theorem ensurePersonId_log_memo (st : PHState) (ed : Fields) (nowStr : String)
    (hED : getField ed "memo" = some (Val.s "")) :
    ∃ ops, (ensurePersonId st ed nowStr).1.log = st.log ++ ops ∧
      ops.any isPeopleAddOp = true ∧
      ∀ op ∈ ops, isSubAddOp op = false ∧ writeMemoBlankOp op := by
  have hgetstr : getStr ed "memo" = "" := by
    unfold getStr
    rw [hED]
  cases hpid : getPersonId st ed with
  | some pid =>
    refine ⟨[WriteOp.addDoc "people" (personDocPayload ed) (some pid)], ?_, rfl, ?_⟩
    · rw [show (ensurePersonId st ed nowStr).1
          = (addDocument st "people" (personDocPayload ed) (some pid)).1 from by
        unfold ensurePersonId; rw [hpid]]
      exact log_addDocument st "people" _ (some pid)
    · intro op hop
      have hope := List.mem_singleton.mp hop
      subst hope
      refine ⟨rfl, ?_⟩
      intro _
      show getField (personDocPayload ed) "memo" = some (Val.s "")
      unfold personDocPayload
      rw [hgetstr]
      rfl
  | none =>
    obtain ⟨mids, hmids, hmidsP⟩ :=
      savePersonId_log (addDocument st "people" (newPersonPayload ed nowStr) none).1
        ed (addDocument st "people" (newPersonPayload ed nowStr) none).2
    refine ⟨WriteOp.addDoc "people" (newPersonPayload ed nowStr) none :: mids,
      ?_, ?_, ?_⟩
    · rw [show (ensurePersonId st ed nowStr).1
          = savePersonId (addDocument st "people" (newPersonPayload ed nowStr) none).1
              ed (addDocument st "people" (newPersonPayload ed nowStr) none).2 from by
        unfold ensurePersonId; rw [hpid]]
      rw [hmids, log_addDocument, List.append_assoc, List.singleton_append]
    · rw [List.any_cons,
        show isPeopleAddOp (WriteOp.addDoc "people" (newPersonPayload ed nowStr) none)
          = true from rfl,
        Bool.true_or]
    · intro op hop
      rcases List.mem_cons.mp hop with hope | hmem
      · subst hope
        refine ⟨rfl, ?_⟩
        intro _
        show getField (newPersonPayload ed nowStr) "memo" = some (Val.s "")
        unfold newPersonPayload
        rw [hgetstr]
        rfl
      · obtain ⟨_, hsub, hblank⟩ := hmidsP op hmem
        exact ⟨hsub, hblank⟩

theorem entry_after_ensure (st : PHState) (ed : Fields) (nowStr : String)
    (hED : getField ed "memo" = some (Val.s "")) :
    ∃ newOps,
      (writeEntryForDate (ensurePersonId st ed nowStr).1
          (ensurePersonId st ed nowStr).2 ed nowStr).1.log = st.log ++ newOps ∧
      newOps.any isPeopleAddOp = true ∧ newOps.any isSubAddOp = true ∧
      ∀ op ∈ newOps, writeMemoBlankOp op := by
  obtain ⟨ops, hops, hPeo, hProps⟩ := ensurePersonId_log_memo st ed nowStr hED
  have hpay : getField (entryPayloadOf ed nowStr) "memo" = some (Val.s "") := by
    unfold entryPayloadOf
    rw [getField_setKV_other _ "entryDate" "memo" _ (by decide)]
    rw [getField_setKV_other _ "date" "memo" _ (by decide)]
    exact hED
  obtain ⟨subData, subId, hlog2, hsubmemo⟩ :=
    writeEntry_log_memo (ensurePersonId st ed nowStr).1
      (ensurePersonId st ed nowStr).2 ed nowStr hpay
  refine ⟨ops ++ [WriteOp.addSubDoc "people" (ensurePersonId st ed nowStr).2
      "entries" subData (some subId)], ?_, ?_, ?_, ?_⟩
  · rw [hlog2, hops, List.append_assoc]
  · rw [List.any_append, hPeo, Bool.true_or]
  · rw [List.any_append,
      show List.any [WriteOp.addSubDoc "people" (ensurePersonId st ed nowStr).2
        "entries" subData (some subId)] isSubAddOp = true from rfl,
      Bool.or_true]
  · intro op hop
    rcases List.mem_append.mp hop with h1 | h2
    · exact (hProps op h1).2
    · have hope := List.mem_singleton.mp h2
      subst hope
      show getField subData "memo" = some (Val.s "")
      exact hsubmemo

/-- **C10**: when the trimmed name has a last name, saving an entry blanks
the memo everywhere it is written: the new store writes include a person
document write and an entry write, and every one of them carries `memo` as
the empty string (discarding the caller's memo). -/
theorem claim_c10_memo_discarded (st : PHState) (data : Fields) (nowStr : String)
    (h : hasLastName (normalizePersonData data).1 = true) :
    ∃ newOps, (saveEntry st data nowStr).1.log = st.log ++ newOps ∧
      newOps.any isPeopleAddOp = true ∧
      newOps.any isSubAddOp = true ∧
      ∀ op ∈ newOps, writeMemoBlankOp op := by
  have hreq : requireUniqueIdentifier (normalizePersonData data).1
      (normalizePersonData data).2 = true := by
    have hne : ((normalizePersonData data).1 == "") = false := by
      cases hq : ((normalizePersonData data).1 == "")
      · rfl
      · exfalso
        rw [beq_iff_eq.mp hq] at h
        exact absurd h (by decide)
    unfold requireUniqueIdentifier
    rw [h, hne]
    simp
  have hED : getField (buildEntryData data (normalizePersonData data).1
      (normalizePersonData data).2) "memo" = some (Val.s "") := by
    unfold buildEntryData
    rw [if_pos h]
    exact getField_setKV_same _ "memo" _
  obtain ⟨newOps, hlog, hP, hS, hAll⟩ :=
    entry_after_ensure st (buildEntryData data (normalizePersonData data).1
      (normalizePersonData data).2) nowStr hED
  refine ⟨newOps, ?_, hP, hS, hAll⟩
  rw [show (saveEntry st data nowStr).1
      = (writeEntryForDate
          (ensurePersonId st (buildEntryData data (normalizePersonData data).1
            (normalizePersonData data).2) nowStr).1
          (ensurePersonId st (buildEntryData data (normalizePersonData data).1
            (normalizePersonData data).2) nowStr).2
          (buildEntryData data (normalizePersonData data).1
            (normalizePersonData data).2) nowStr).1 from by
    unfold saveEntry
    rw [hreq]
    rw [if_neg (by simp)]]
  exact hlog

/-- **C10** witness: saving "Ada Lovelace" with memo "Historic" from the
empty store issues a person write and an entry write, all with memo `''`. -/
theorem claim_c10_witness :
    ∃ newOps, (saveEntry phEmpty
        [("name", Val.s "Ada Lovelace"), ("memo", Val.s "Historic")]
        "2024-01-02T03:04:05.000Z").1.log = phEmpty.log ++ newOps ∧
      newOps.any isPeopleAddOp = true ∧
      newOps.any isSubAddOp = true ∧
      ∀ op ∈ newOps, writeMemoBlankOp op :=
  claim_c10_memo_discarded phEmpty
    [("name", Val.s "Ada Lovelace"), ("memo", Val.s "Historic")]
    "2024-01-02T03:04:05.000Z" (by decide)

/-- **C2**: when an entry already exists for the (person, day) pair —
`firstEntryMatch` returns it, its id is stable under trimming, and the
stored entry ids are distinct — writing again for that day reuses the
existing entry id, leaves the number of stored entries unchanged, and the
stored document afterwards maps every key to the new payload's value when
the payload carries the key and to the previously stored value otherwise. -/
theorem claim_c2_upsert_entry_merges (st : PHState) (pid : String) (ed : Fields)
    (nowStr id0 : String) (old : Fields)
    (hnd : ((entriesOf st pid).map Prod.fst).Nodup)
    (hfm : firstEntryMatch st pid (entryDayOf ed nowStr) = some (id0, old))
    (hid : jsTrim id0 ≠ "") :
    (writeEntryForDate st pid ed nowStr).2 = id0 ∧
    (entriesOf (writeEntryForDate st pid ed nowStr).1 pid).length
      = (entriesOf st pid).length ∧
    ∃ newDoc,
      entryDocOf (writeEntryForDate st pid ed nowStr).1 pid id0 = some newDoc ∧
      ∀ k, getField newDoc k
        = if fieldsHas (entryPayloadOf ed nowStr) k
          then getField (entryPayloadOf ed nowStr) k else getField old k := by
  unfold firstEntryMatch at hfm
  cases hm : ((entriesOf st pid).filter
      (fun p => strFieldIs p.2 "entryDate" (entryDayOf ed nowStr))) with
  | nil =>
    rw [hm] at hfm
    cases hfm
  | cons d tl =>
    rw [hm, List.head?_cons] at hfm
    have hd := Option.some.inj hfm
    subst hd
    have hbne : (jsTrim id0 != "") = true := bne_iff_ne.mpr hid
    have hmem : (id0, old) ∈ entriesOf st pid :=
      List.mem_of_mem_filter (by rw [hm]; exact List.mem_cons_self _ _)
    have hany : ((entriesOf st pid).any (fun p => p.1 == id0)) = true :=
      List.any_eq_true.mpr ⟨(id0, old), hmem, by simp⟩
    have hw : writeEntryForDate st pid ed nowStr
        = ((addSubcollectionDocument st "people" pid "entries"
            (mergeFields old (entryPayloadOf ed nowStr)) (some id0)).1, id0) := by
      unfold writeEntryForDate
      rw [hm]
    have hWE : entriesOf (addSubcollectionDocument st "people" pid "entries"
        (mergeFields old (entryPayloadOf ed nowStr)) (some id0)).1 pid
        = setDocMerge (entriesOf st pid) id0
            (mergeFields old (entryPayloadOf ed nowStr)) := by
      unfold addSubcollectionDocument
      dsimp only
      rw [if_pos hbne]
      dsimp only
      rw [entriesOf_setEntries_same]
      rfl
    have hfind : ((setDocMerge (entriesOf st pid) id0
        (mergeFields old (entryPayloadOf ed nowStr))).find? (fun p => p.1 == id0))
        = some (id0, mergeFields old (mergeFields old (entryPayloadOf ed nowStr))) := by
      unfold setDocMerge
      rw [if_pos hany]
      exact find?_map_mergeAt
        (fun b => mergeFields b (mergeFields old (entryPayloadOf ed nowStr)))
        (entriesOf st pid) id0 old hmem hnd
    refine ⟨?_, ?_, ?_⟩
    · rw [hw]
    · rw [hw]
      dsimp only
      rw [hWE]
      unfold setDocMerge
      rw [if_pos hany]
      simp
    · refine ⟨mergeFields old (mergeFields old (entryPayloadOf ed nowStr)), ?_, ?_⟩
      · unfold entryDocOf
        rw [hw]
        dsimp only
        rw [hWE, hfind]
        rfl
      · intro k
        rw [getField_merge_absorb, getField_mergeFields]

/-- The first same-day write: an entry carrying only a place. -/
def entryCafe : Fields := [("place", Val.s "Cafe")]

/-- The second same-day write: an entry carrying only facts. -/
def entryFactsW : Fields := [("facts", Val.factsV [(0, "Loves hiking")])]

/-- The store after the first write of the day. -/
def stCafe : PHState :=
  (writeEntryForDate phEmpty "p1" entryCafe "2024-01-02T03:04:05.000Z").1

/-- The entry document stored by the first write. -/
def oldCafe : Fields :=
  [("place", Val.s "Cafe"), ("date", Val.s "2024-01-02T03:04:05.000Z"),
   ("entryDate", Val.s "2024-01-02")]

/-- **C2** witness: after writing `{place: "Cafe"}`, a same-day write of
`{facts: [...]}` reuses entry id "2024-01-02", keeps a single stored entry,
and the merged document prefers the new payload's keys while preserving the
stored place. -/
theorem claim_c2_witness :
    (writeEntryForDate stCafe "p1" entryFactsW "2024-01-02T03:04:05.000Z").2
      = "2024-01-02" ∧
    (entriesOf (writeEntryForDate stCafe "p1" entryFactsW
        "2024-01-02T03:04:05.000Z").1 "p1").length = (entriesOf stCafe "p1").length ∧
    ∃ newDoc,
      entryDocOf (writeEntryForDate stCafe "p1" entryFactsW
          "2024-01-02T03:04:05.000Z").1 "p1" "2024-01-02" = some newDoc ∧
      ∀ k, getField newDoc k
        = if fieldsHas (entryPayloadOf entryFactsW "2024-01-02T03:04:05.000Z") k
          then getField (entryPayloadOf entryFactsW "2024-01-02T03:04:05.000Z") k
          else getField oldCafe k :=
  claim_c2_upsert_entry_merges stCafe "p1" entryFactsW "2024-01-02T03:04:05.000Z"
    "2024-01-02" oldCafe (by decide) (by rfl) (by decide)

end Atlas
